import Mathlib

/-! aapt2 `java/ClassDefinition.cpp`: model and verification

A shallow embedding of `tools/aapt2/java/ClassDefinition.cpp`: the member tree
(`MethodDefinition`, `ClassDefinition`), the override algorithm of `AddMember`,
`empty`, `Print` and `WriteJavaFile`, together with the text printer the
rendering drives.

Text is a `String` where the program holds a `std::string`, and the printer's
sink is the list of characters written so far.
-/

namespace aapt

set_option linter.unusedVariables false

/-! ## The text printer -/

/-- Modelled from the spec: the `text::Printer` class is declared outside
`ClassDefinition.cpp`. The state of a printer: the characters written to the
sink so far, the indentation depth, and whether the next character written
starts a line (and so must be preceded by the indentation). -/
structure Printer where
  out : List Char
  indent_level : Nat
  needs_indent : Bool
deriving DecidableEq, Repr

/-- Modelled from the spec: the single fixed indentation unit of the printer,
one space per depth (section 6). -/
def Printer.indentUnit : List Char := [' ']

/-- Modelled from the spec: the indentation that starts a line, the fixed unit
multiplied by the current depth. -/
def Printer.indentation (p : Printer) : List Char :=
  (List.replicate p.indent_level Printer.indentUnit).flatten

/-- Modelled from the spec: one character reaches the sink. A newline ends the
line; any other character is preceded by the indentation when it is the first
of its line, so the indentation is applied once at the start of each emitted
line, never mid-line, and a line that stays blank gets none. -/
def Printer.putChar (p : Printer) (c : Char) : Printer :=
  if c = '\n' then
    { p with out := p.out ++ [c], needs_indent := true }
  else if p.needs_indent then
    { p with out := p.out ++ p.indentation ++ [c], needs_indent := false }
  else
    { p with out := p.out ++ [c] }

/-- Modelled from the spec: `Printer::Print(text)` appends the text without a
trailing newline, honouring indentation on the first write after a newline
boundary. -/
def Printer.Print (p : Printer) (str : String) : Printer :=
  str.toList.foldl Printer.putChar p

/-- Modelled from the spec: `Printer::Println(text)` appends the text followed
by a newline. -/
def Printer.Println (p : Printer) (str : String) : Printer :=
  (p.Print str).Print "\n"

/-- Modelled from the spec: `Printer::Println()` with no argument appends just
a newline. -/
def Printer.PrintlnEmpty (p : Printer) : Printer :=
  p.Print "\n"

/-- Modelled from the spec: `Printer::Indent()` increases the depth by one. -/
def Printer.Indent (p : Printer) : Printer :=
  { p with indent_level := p.indent_level + 1 }

/-- Modelled from the spec: `Printer::Undent()` decreases the depth by one;
undenting at depth zero is a fatal precondition violation (`none`). -/
def Printer.Undent (p : Printer) : Option Printer :=
  if p.indent_level = 0 then none
  else some { p with indent_level := p.indent_level - 1 }

/-- Modelled from the spec: a printer constructed over a sink that already
holds `out`: depth zero, at the start of a line. -/
def Printer.over (out : List Char) : Printer :=
  { out := out, indent_level := 0, needs_indent := true }

/-! ## The member tree -/

/-- Modelled from the spec: `ClassQualifier` of `ClassDefinition.h`: a
top-level class or a nested static class. -/
inductive ClassQualifier where
  | kNone
  | kStatic
deriving DecidableEq, Repr

/-- Modelled from the spec: `AnnotationProcessor`, the comment and annotation
block every `ClassMember` owns (`processor_`), is declared outside
`ClassDefinition.cpp`; it is taken as the text it hands to the printer. -/
structure AnnotationProcessor where
  text : String
deriving DecidableEq, Repr

/-- What `processor_.Print(printer)` writes: the block's text. -/
def AnnotationProcessor.Print (a : AnnotationProcessor) (printer : Printer) : Printer :=
  printer.Print a.text

/-- Modelled from the spec: the fields of `MethodDefinition` (declared in
`ClassDefinition.h`): the name used as the override key, the signature rendered
verbatim, and the statements in append order. -/
structure MethodDefinition where
  name : String
  signature : String
  statements_ : List String
deriving DecidableEq, Repr

/-- Modelled from the spec: the fields of `ClassDefinition` (declared in
`ClassDefinition.h`) over a member type `M`: the comment block, the name, the
qualifier, `create_if_empty_`, the slot sequence `ordered_members_` (a slot is
`some` member or the tombstone `none`, the reset `unique_ptr`) and the
name-to-slot-index map `indexed_members_`, kept as an association list. -/
structure ClassDefinitionOf (M : Type) where
  processor_ : AnnotationProcessor
  name_ : String
  qualifier_ : ClassQualifier
  create_if_empty_ : Bool
  ordered_members_ : List (Option M)
  indexed_members_ : List (String × Nat)
deriving Repr

/-- The closed set of member kinds: a method or a (nested) class. -/
inductive ClassMember where
  | method (m : MethodDefinition)
  | classDef (c : ClassDefinitionOf ClassMember)

/-- A class of the member tree. -/
abbrev ClassDefinition := ClassDefinitionOf ClassMember

/-- The result of `AddMember`. -/
inductive Result where
  | kAdded
  | kOverridden
deriving DecidableEq, Repr

/-- Modelled from the spec: `GetName()`, the stable key of a member. -/
def ClassMember.GetName : ClassMember → String
  | .method m => m.name
  | .classDef c => c.name_

/-- The constructor `ClassDefinition(name, qualifier, createIfEmpty)`: no slots,
an empty index, an empty comment block. -/
def ClassDefinition.new (name : String) (qualifier : ClassQualifier)
    (createIfEmpty : Bool) : ClassDefinition :=
  { processor_ := ⟨""⟩, name_ := name, qualifier_ := qualifier,
    create_if_empty_ := createIfEmpty, ordered_members_ := [],
    indexed_members_ := [] }

/-! ## `MethodDefinition` -/

/-- `MethodDefinition::AppendStatement`: `statements_.push_back(statement)`. -/
def MethodDefinition.AppendStatement (m : MethodDefinition) (statement : String) :
    MethodDefinition :=
  { m with statements_ := m.statements_ ++ [statement] }

/-- `MethodDefinition::Print`. -/
def MethodDefinition.Print (m : MethodDefinition) (final : Bool) (printer : Printer) :
    Option Printer :=
  let p := (printer.Print m.signature).Println " \x7b"
  let p := p.Indent
  let p := m.statements_.foldl (fun q statement => q.Println statement) p
  match p.Undent with
  | none => none
  | some p => some (p.Print "\x7d")

/-! ## `ClassDefinition::AddMember` -/

/-- `indexed_members_.find(key)`: the index stored for the key, if any. -/
def indexFind (index : List (String × Nat)) (key : String) : Option Nat :=
  index.lookup key

/-- `indexed_members_.erase(iter)` for the iterator `find(key)` returned: the
entry found is removed. -/
def indexErase (index : List (String × Nat)) (key : String) : List (String × Nat) :=
  index.eraseP (fun e => key == e.1)

/-- `indexed_members_[key] = value`: assigns to the entry of the key, inserting
one when there is none. -/
def indexAssign (index : List (String × Nat)) (key : String) (value : Nat) :
    List (String × Nat) :=
  match index.lookup key with
  | some _ => index.map (fun e => if key == e.1 then (e.1, value) else e)
  | none => index ++ [(key, value)]

/-- `ClassDefinition::AddMember`, returning the result and the class after the
call. `ordered_members_[index].reset()` is `List.set`, which leaves the slots
alone where the C++ indexing would be out of bounds. -/
def ClassDefinition.AddMember (c : ClassDefinition) (member : ClassMember) :
    Result × ClassDefinition :=
  match indexFind c.indexed_members_ member.GetName with
  | some index =>
    let indexed := indexErase c.indexed_members_ member.GetName
    let ordered := c.ordered_members_.set index none
    (Result.kOverridden,
      { c with
        indexed_members_ := indexAssign indexed member.GetName ordered.length
        ordered_members_ := ordered ++ [some member] })
  | none =>
    (Result.kAdded,
      { c with
        indexed_members_ :=
          indexAssign c.indexed_members_ member.GetName c.ordered_members_.length
        ordered_members_ := c.ordered_members_ ++ [some member] })

/-! ## `empty` and `Print` -/

mutual
/-- The virtual `member->empty()`: always false for a method. -/
def ClassMember.empty : ClassMember → Bool
  | .method _ => false
  | .classDef c => ClassDefinition.empty c
/-- `ClassDefinition::empty`. -/
def ClassDefinition.empty : ClassDefinition → Bool
  | ⟨_, _, _, _, ordered_members, _⟩ => emptyLoop ordered_members
/-- The loop of `ClassDefinition::empty` over the slots: the first live member
that is not empty makes it return false. -/
def emptyLoop : List (Option ClassMember) → Bool
  | [] => true
  | none :: rest => emptyLoop rest
  | some member :: rest => if !member.empty then false else emptyLoop rest
end

mutual
/-- The virtual `member->Print(final, printer)`. -/
def ClassMember.Print : ClassMember → Bool → Printer → Option Printer
  | .method m, final, printer => m.Print final printer
  | .classDef c, final, printer => ClassDefinition.Print c final printer
/-- `ClassDefinition::Print`; `ClassMember::Print(final, printer)`, the base
method, is `processor_.Print(printer)`. -/
def ClassDefinition.Print : ClassDefinition → Bool → Printer → Option Printer
  | ⟨processor, name, qualifier, create_if_empty, ordered_members, _⟩, final, printer =>
    if emptyLoop ordered_members && !create_if_empty then some printer
    else
      let p := processor.Print printer
      let p := p.Print "public "
      let p := if qualifier = ClassQualifier.kStatic then p.Print "static " else p
      let p := ((p.Print "final class ").Print name).Println " \x7b"
      let p := p.Indent
      match printLoop ordered_members final p with
      | none => none
      | some p =>
        match p.Undent with
        | none => none
        | some p => some (p.Print "\x7d")
/-- The member loop of `ClassDefinition::Print`: a tombstone is skipped, a live
member is printed and followed by `Println()`. -/
def printLoop : List (Option ClassMember) → Bool → Printer → Option Printer
  | [], _, printer => some printer
  | none :: rest, final, printer => printLoop rest final printer
  | some member :: rest, final, printer =>
    match member.Print final printer with
    | none => none
    | some p => printLoop rest final p.PrintlnEmpty
end

/-! ## `WriteJavaFile` -/

/-- The constant `sWarningHeader`. -/
def sWarningHeader : String :=
  "/* AUTO-GENERATED FILE. DO NOT MODIFY.\n" ++
  " *\n" ++
  " * This class was automatically generated by the\n" ++
  " * aapt tool from the resource data it found. It\n" ++
  " * should not be modified by hand.\n" ++
  " */\n\n"

/-- `ClassDefinition::WriteJavaFile`: `out` is what the sink holds before the
call, the result is what it holds afterwards. -/
def WriteJavaFile (classDef : ClassDefinition) (package : String) (final : Bool)
    (out : List Char) : Option (List Char) :=
  let printer := Printer.over out
  let printer := (((printer.Print sWarningHeader).Print "package ").Print package).Println ";"
  let printer := printer.PrintlnEmpty
  match classDef.Print final printer with
  | none => none
  | some p => some p.out

/-! ## Reachable classes and live slots -/

/-- The classes a caller can build: a class with no slots and an empty index,
then any finite sequence of `AddMember` calls. -/
inductive Reachable : ClassDefinition → Prop where
  | init (c : ClassDefinition) (hslots : c.ordered_members_ = [])
      (hindex : c.indexed_members_ = []) : Reachable c
  | step (c : ClassDefinition) (member : ClassMember) (h : Reachable c) :
      Reachable (c.AddMember member).2

/-- Slot `i` is live and holds a member named `n`. -/
def ClassDefinition.liveAt (c : ClassDefinition) (i : Nat) (n : String) : Prop :=
  ∃ m : ClassMember, c.ordered_members_[i]? = some (some m) ∧ m.GetName = n

/-- The class after a sequence of `AddMember` calls. -/
def ClassDefinition.addAll (c : ClassDefinition) (members : List ClassMember) :
    ClassDefinition :=
  members.foldl (fun d member => (d.AddMember member).2) c

/-- The live members in slot order. -/
def ClassDefinition.liveMembers (c : ClassDefinition) : List ClassMember :=
  c.ordered_members_.filterMap id

/-- The index is consistent with the slots: no key occurs twice, and a name is
mapped to `i` exactly when slot `i` is live and holds a member of that name. -/
structure IndexConsistent (c : ClassDefinition) : Prop where
  keys_nodup : (c.indexed_members_.map Prod.fst).Nodup
  find_iff : ∀ n i, indexFind c.indexed_members_ n = some i ↔ c.liveAt i n

/-! ## Vocabulary of the rendering claims -/

/-- The printer with `pre` written to the sink before everything it wrote. -/
def Printer.prepend (p : Printer) (pre : List Char) : Printer :=
  { p with out := pre ++ p.out }

/-- The characters the printer writes for `str` when it starts at the beginning
of a line at the given depth. -/
def Printer.lineText (depth : Nat) (str : String) : List Char :=
  ((Printer.mk [] depth true).Print str).out

/-- The declaration line of a class: `public`, `static` for a nested static
class, `final class <name> {` and the newline. -/
def ClassDefinition.declaration (c : ClassDefinition) : String :=
  "public " ++ (if c.qualifier_ = ClassQualifier.kStatic then "static " else "") ++
    "final class " ++ c.name_ ++ " \x7b\n"

/-- The rendering of a sequence of members: each one printed, each followed by a
newline. -/
def renderMembers : List ClassMember → Bool → Printer → Option Printer
  | [], _, printer => some printer
  | member :: rest, final, printer =>
    match member.Print final printer with
    | none => none
    | some p => renderMembers rest final (p.Print "\n")

/-- The class with its slot sequence replaced. -/
def ClassDefinition.withSlots (c : ClassDefinition) (slots : List (Option ClassMember)) :
    ClassDefinition :=
  { c with ordered_members_ := slots }

/-! ## Example classes -/

/-- The method `getString()` of the spec's scenario. -/
def getStringMethod : MethodDefinition :=
  { name := "getString", signature := "public String getString()",
    statements_ := ["return \"x\";"] }

/-- The static nested class `string` holding `getString()`. -/
def stringClass : ClassDefinition :=
  ((ClassDefinition.new "string" ClassQualifier.kStatic false).AddMember
    (ClassMember.method getStringMethod)).2

/-- The root class `R` holding the nested class `string`. -/
def rootR : ClassDefinition :=
  ((ClassDefinition.new "R" ClassQualifier.kNone false).AddMember
    (ClassMember.classDef stringClass)).2

/-- A class whose slots are a tombstone and an empty nested class. -/
def elidedExample : ClassDefinition :=
  { processor_ := ⟨"/** R */\n"⟩, name_ := "R", qualifier_ := ClassQualifier.kNone,
    create_if_empty_ := false,
    ordered_members_ :=
      [none, some (ClassMember.classDef (ClassDefinition.new "inner" ClassQualifier.kStatic false))],
    indexed_members_ := [("inner", 1)] }

/-- A root class `R` that holds the method `bar()`. -/
def overrideBase : ClassDefinition :=
  ((ClassDefinition.new "R" ClassQualifier.kNone false).AddMember
    (ClassMember.method { name := "bar", signature := "void bar()", statements_ := [] })).2

/-- The method `foo()`. -/
def fooMethod : MethodDefinition :=
  { name := "foo", signature := "void foo()", statements_ := ["return;"] }

/-- The nested class `foo`, rendered even when empty. -/
def fooClass : ClassDefinition :=
  ClassDefinition.new "foo" ClassQualifier.kStatic true

/-- A class whose only slots are tombstones. -/
def tombstonesOnly : ClassDefinition :=
  { processor_ := ⟨""⟩, name_ := "R", qualifier_ := ClassQualifier.kNone,
    create_if_empty_ := false, ordered_members_ := [none, none], indexed_members_ := [] }

/-! ## The ordered map the slot list and index stand for -/

/-- The reference step, in the spec's words: an ordered mapping from name to
member in which re-insertion moves the key to the end. Any entry with the same
name is removed, then the new member is appended; the result tells whether an
entry was removed. -/
def refAddMember (entries : List ClassMember) (member : ClassMember) :
    Result × List ClassMember :=
  (if entries.any (fun x => x.GetName == member.GetName) then Result.kOverridden
    else Result.kAdded,
   entries.filter (fun x => x.GetName != member.GetName) ++ [member])

/-- The reference map after a sequence of insertions. -/
def refAddAll (entries : List ClassMember) (members : List ClassMember) : List ClassMember :=
  members.foldl (fun l member => (refAddMember l member).2) entries

/-- The results the reference map gives for a sequence of insertions. -/
def refAddAllResults : List ClassMember → List ClassMember → List Result
  | _, [] => []
  | entries, member :: rest =>
    (refAddMember entries member).1 :: refAddAllResults (refAddMember entries member).2 rest

/-- The results of a sequence of `AddMember` calls. -/
def ClassDefinition.addAllResults : ClassDefinition → List ClassMember → List Result
  | _, [] => []
  | c, member :: rest =>
    (c.AddMember member).1 :: ClassDefinition.addAllResults (c.AddMember member).2 rest

/-- A member-less nested class that is not `create_if_empty_`. -/
def emptyNested : ClassDefinition :=
  ClassDefinition.new "C" ClassQualifier.kStatic false

/-- A root class `P` that is `create_if_empty_` and has no member. -/
def shownRoot : ClassDefinition :=
  ClassDefinition.new "P" ClassQualifier.kNone true

/-- The root class `P` with the empty nested class `C` as its only member. -/
def shownRootWithEmptyNested : ClassDefinition :=
  (shownRoot.AddMember (ClassMember.classDef emptyNested)).2

/-! ## Members reached through live slots -/

/-- Member `x` is reached from class `c` through live slots, `n` levels down:
it is a live member of `c`, or reached from a live nested class of `c`. -/
inductive LiveIn : ClassDefinition → ClassMember → Nat → Prop where
  | direct (c : ClassDefinition) (x : ClassMember) (h : some x ∈ c.ordered_members_) :
      LiveIn c x 1
  | nested (c k : ClassDefinition) (x : ClassMember) (n : Nat)
      (h : some (ClassMember.classDef k) ∈ c.ordered_members_) (hk : LiveIn k x n) :
      LiveIn c x (n + 1)

/-- Member `x` is reached from class `c` through live slots, `n` levels down,
and every class on the way, `c` included, is printed: it is not empty or it is
`create_if_empty_`. -/
inductive PrintedIn : ClassDefinition → ClassMember → Nat → Prop where
  | direct (c : ClassDefinition) (x : ClassMember)
      (hshown : c.empty = false ∨ c.create_if_empty_ = true)
      (h : some x ∈ c.ordered_members_) : PrintedIn c x 1
  | nested (c k : ClassDefinition) (x : ClassMember) (n : Nat)
      (hshown : c.empty = false ∨ c.create_if_empty_ = true)
      (h : some (ClassMember.classDef k) ∈ c.ordered_members_) (hk : PrintedIn k x n) :
      PrintedIn c x (n + 1)

/-- What `WriteJavaFile` writes before it prints the root class. -/
def filePreamble (package : String) : List Char :=
  sWarningHeader.toList ++ "package ".toList ++ package.toList ++ [';', '\n'] ++ ['\n']

/-- A root that is not `create_if_empty_` and whose only member is the
member-less `create_if_empty_` class `foo`. -/
def hiddenCreateIfEmpty : ClassDefinition :=
  ((ClassDefinition.new "R" ClassQualifier.kNone false).AddMember
    (ClassMember.classDef fooClass)).2

/-- A root that is `create_if_empty_` and whose only member is the member-less
`create_if_empty_` class `foo`. -/
def shownCreateIfEmpty : ClassDefinition :=
  ((ClassDefinition.new "R" ClassQualifier.kNone true).AddMember
    (ClassMember.classDef fooClass)).2

/-! ## The printer calls a rendering makes -/

/-- A call on the printer: `Print(str)`, `Indent()` or `Undent()`; `Println(str)`
is `Print(str)` followed by `Print("\n")`. -/
inductive PrinterOp where
  | print (str : String)
  | indent
  | undent
deriving DecidableEq, Repr

/-- The printer after a sequence of calls; `none` when an `Undent()` is made at
depth zero. -/
def runOps : List PrinterOp → Printer → Option Printer
  | [], p => some p
  | PrinterOp.print str :: rest, p => runOps rest (p.Print str)
  | PrinterOp.indent :: rest, p => runOps rest p.Indent
  | PrinterOp.undent :: rest, p =>
    match p.Undent with
    | none => none
    | some q => runOps rest q

/-- The depth after a sequence of calls that starts at `depth`. -/
def depthAfter : List PrinterOp → Nat → Nat
  | [], depth => depth
  | PrinterOp.print _ :: rest, depth => depthAfter rest depth
  | PrinterOp.indent :: rest, depth => depthAfter rest (depth + 1)
  | PrinterOp.undent :: rest, depth => depthAfter rest (depth - 1)

/-- While the calls run from `depth`, the depth never drops below `floor`: every
`Undent()` is made at a depth above `floor`. -/
def staysAbove (floor : Nat) : List PrinterOp → Nat → Bool
  | [], _ => true
  | PrinterOp.print _ :: rest, depth => staysAbove floor rest depth
  | PrinterOp.indent :: rest, depth => staysAbove floor rest (depth + 1)
  | PrinterOp.undent :: rest, depth => decide (floor < depth) && staysAbove floor rest (depth - 1)

/-- The calls `MethodDefinition::Print` makes, in order. -/
def MethodDefinition.ops (m : MethodDefinition) (final : Bool) : List PrinterOp :=
  [PrinterOp.print m.signature, PrinterOp.print " \x7b", PrinterOp.print "\n",
    PrinterOp.indent] ++
  (m.statements_.map (fun statement =>
    [PrinterOp.print statement, PrinterOp.print "\n"])).flatten ++
  [PrinterOp.undent, PrinterOp.print "\x7d"]

mutual
/-- The calls the virtual `member->Print(final, printer)` makes. -/
def ClassMember.ops : ClassMember → Bool → List PrinterOp
  | .method m, final => m.ops final
  | .classDef c, final => ClassDefinition.ops c final
/-- The calls `ClassDefinition::Print` makes, in order: none when the class is
elided. -/
def ClassDefinition.ops : ClassDefinition → Bool → List PrinterOp
  | ⟨processor, name, qualifier, create_if_empty, ordered_members, _⟩, final =>
    if emptyLoop ordered_members && !create_if_empty then []
    else
      [PrinterOp.print processor.text, PrinterOp.print "public "] ++
      (if qualifier = ClassQualifier.kStatic then [PrinterOp.print "static "] else []) ++
      [PrinterOp.print "final class ", PrinterOp.print name, PrinterOp.print " \x7b",
        PrinterOp.print "\n", PrinterOp.indent] ++
      opsLoop ordered_members final ++
      [PrinterOp.undent, PrinterOp.print "\x7d"]
/-- The calls of the member loop of `ClassDefinition::Print`. -/
def opsLoop : List (Option ClassMember) → Bool → List PrinterOp
  | [], _ => []
  | none :: rest, final => opsLoop rest final
  | some member :: rest, final =>
    member.ops final ++ [PrinterOp.print "\n"] ++ opsLoop rest final
end

/-- The calls `WriteJavaFile` makes on the printer it constructs. -/
def WriteJavaFileOps (classDef : ClassDefinition) (package : String) (final : Bool) :
    List PrinterOp :=
  [PrinterOp.print sWarningHeader, PrinterOp.print "package ", PrinterOp.print package,
    PrinterOp.print ";", PrinterOp.print "\n", PrinterOp.print "\n"] ++ classDef.ops final

/-- A sequence of calls is balanced: from any depth it never goes below a floor
that the starting depth respects, and it returns to the starting depth. -/
def BalancedOps (ops : List PrinterOp) : Prop :=
  ∀ floor depth : Nat, floor ≤ depth →
    staysAbove floor ops depth = true ∧ depthAfter ops depth = depth

/-! ## The layout of a well-formed member tree -/

/-- The indentation of a line inside `depth` nested scopes: `depth` units. -/
def indentOf (depth : Nat) : List Char :=
  (List.replicate depth Printer.indentUnit).flatten

/-- The text holds no newline. -/
def noNewline (str : String) : Bool :=
  !str.toList.contains '\n'

/-- The text is a line: not empty and without a newline. -/
def isLine (str : String) : Bool :=
  str != "" && noNewline str

/-- The text ends a line: it is empty or its last character is a newline, so
what is written after it starts a line. -/
def endsLine (str : String) : Bool :=
  match str.toList.getLast? with
  | none => true
  | some c => c == '\n'

mutual
/-- The member tree is well formed for the layout: every signature and class
name is without a newline and every statement is a line. -/
def ClassMember.wellFormed : ClassMember → Bool
  | .method m => noNewline m.signature && m.statements_.all isLine
  | .classDef c => ClassDefinition.wellFormed c
/-- Well-formedness of a class: its name and its live members. -/
def ClassDefinition.wellFormed : ClassDefinition → Bool
  | ⟨_, name, _, _, ordered_members, _⟩ => noNewline name && wellFormedLoop ordered_members
/-- Well-formedness of the live members of a slot sequence. -/
def wellFormedLoop : List (Option ClassMember) → Bool
  | [] => true
  | none :: rest => wellFormedLoop rest
  | some member :: rest => member.wellFormed && wellFormedLoop rest
end

/-- The layout of a method whose header stands inside `depth` scopes: the header
and the closing brace carry `depth` units, each statement `depth + 1`. -/
def MethodDefinition.render (m : MethodDefinition) (depth : Nat) : List Char :=
  indentOf depth ++ m.signature.toList ++ [' ', '\x7b', '\n'] ++
  (m.statements_.map (fun statement =>
    indentOf (depth + 1) ++ statement.toList ++ ['\n'])).flatten ++
  indentOf depth ++ ['\x7d']

mutual
/-- The layout of a member whose header stands inside `depth` scopes. -/
def ClassMember.render : ClassMember → Nat → List Char
  | .method m, depth => m.render depth
  | .classDef c, depth => ClassDefinition.render c depth
/-- The layout of a class whose header stands inside `depth` scopes: nothing
when it is elided; otherwise its comment block laid out at `depth`, the
declaration line with `depth` units when it starts a line, the members at
`depth + 1`, each followed by a newline, and the closing brace with `depth`
units. -/
def ClassDefinition.render : ClassDefinition → Nat → List Char
  | ⟨processor, name, qualifier, create_if_empty, ordered_members, _⟩, depth =>
    if emptyLoop ordered_members && !create_if_empty then []
    else
      Printer.lineText depth processor.text ++
      (if endsLine processor.text then indentOf depth else []) ++
      ("public " ++ (if qualifier = ClassQualifier.kStatic then "static " else "") ++
        "final class " ++ name ++ " \x7b\n").toList ++
      renderLoop ordered_members (depth + 1) ++
      indentOf depth ++ ['\x7d']
/-- The layout of the live members of a slot sequence, each followed by a
newline. -/
def renderLoop : List (Option ClassMember) → Nat → List Char
  | [], _ => []
  | none :: rest, depth => renderLoop rest depth
  | some member :: rest, depth => member.render depth ++ ['\n'] ++ renderLoop rest depth
end

/-! ## The index as an association list -/

theorem lookup_indexErase_self (l : List (String × Nat)) (k : String)
    (h : (l.map Prod.fst).Nodup) : (indexErase l k).lookup k = none := by
  induction l with
  | nil => simp [indexErase]
  | cons e rest ih =>
    obtain ⟨a, b⟩ := e
    simp only [List.map_cons, List.nodup_cons] at h
    by_cases hk : k = a
    · subst hk
      simp only [indexErase, beq_self_eq_true, List.eraseP_cons_of_pos]
      rw [List.lookup_eq_none_iff]
      intro e he
      simp only [bne_iff_ne, ne_eq]
      intro heq
      exact h.1 (by rw [heq]; exact List.mem_map_of_mem _ he)
    · have hne : (k == a) = false := by simpa using hk
      simp only [indexErase, hne, Bool.false_eq_true, not_false_eq_true,
        List.eraseP_cons_of_neg, List.lookup_cons]
      exact ih h.2

theorem lookup_indexErase_ne (l : List (String × Nat)) (k k' : String) (hne : k' ≠ k) :
    (indexErase l k).lookup k' = l.lookup k' := by
  induction l with
  | nil => simp [indexErase]
  | cons e rest ih =>
    obtain ⟨a, b⟩ := e
    by_cases hk : k = a
    · subst hk
      have : (k' == k) = false := by simpa using hne
      simp [indexErase, List.lookup_cons, this]
    · have hka : (k == a) = false := by simpa using hk
      simp only [indexErase, hka, Bool.false_eq_true, not_false_eq_true,
        List.eraseP_cons_of_neg, List.lookup_cons]
      cases hk' : (k' == a)
      · exact ih
      · rfl

theorem keys_nodup_indexErase (l : List (String × Nat)) (k : String)
    (h : (l.map Prod.fst).Nodup) : ((indexErase l k).map Prod.fst).Nodup :=
  List.Nodup.sublist ((List.eraseP_sublist l).map Prod.fst) h

theorem indexAssign_of_none (l : List (String × Nat)) (k : String) (v : Nat)
    (h : l.lookup k = none) : indexAssign l k v = l ++ [(k, v)] := by
  simp [indexAssign, h]

theorem lookup_append_entry (l : List (String × Nat)) (k k' : String) (v : Nat) :
    (l ++ [(k, v)]).lookup k' =
      match l.lookup k' with
      | some i => some i
      | none => if k' = k then some v else none := by
  rw [List.lookup_append]
  cases h : l.lookup k' with
  | some i => simp
  | none =>
    by_cases hk : k' = k
    · subst hk; simp
    · have : (k' == k) = false := by simpa using hk
      simp [List.lookup_cons, this, hk]

theorem keys_nodup_append_entry (l : List (String × Nat)) (k : String) (v : Nat)
    (h : (l.map Prod.fst).Nodup) (hk : l.lookup k = none) :
    ((l ++ [(k, v)]).map Prod.fst).Nodup := by
  rw [List.map_append, List.nodup_append]
  refine ⟨h, by simp, ?_⟩
  rw [List.lookup_eq_none_iff] at hk
  intro a ha hb
  simp only [List.map_cons, List.map_nil, List.mem_singleton] at hb
  subst hb
  obtain ⟨e, he, rfl⟩ := List.mem_map.1 ha
  have := hk e he
  simp at this

/-! ## What `AddMember` does to the slots and the index -/

theorem liveAt_lt (c : ClassDefinition) (i : Nat) (n : String) (h : c.liveAt i n) :
    i < c.ordered_members_.length := by
  obtain ⟨m, hm, -⟩ := h
  by_contra hlt
  rw [List.getElem?_eq_none (by omega)] at hm
  cases hm

theorem AddMember_fields (c : ClassDefinition) (member : ClassMember) :
    (c.AddMember member).2.name_ = c.name_ ∧
    (c.AddMember member).2.qualifier_ = c.qualifier_ ∧
    (c.AddMember member).2.create_if_empty_ = c.create_if_empty_ ∧
    (c.AddMember member).2.processor_ = c.processor_ := by
  unfold ClassDefinition.AddMember
  cases indexFind c.indexed_members_ member.GetName <;> simp

theorem AddMember_length (c : ClassDefinition) (member : ClassMember) :
    (c.AddMember member).2.ordered_members_.length = c.ordered_members_.length + 1 := by
  unfold ClassDefinition.AddMember
  cases indexFind c.indexed_members_ member.GetName <;> simp

theorem AddMember_last (c : ClassDefinition) (member : ClassMember) :
    (c.AddMember member).2.ordered_members_[c.ordered_members_.length]? =
      some (some member) := by
  unfold ClassDefinition.AddMember
  cases indexFind c.indexed_members_ member.GetName <;>
    simp [List.getElem?_append_right]

theorem AddMember_result (c : ClassDefinition) (member : ClassMember)
    (hc : IndexConsistent c) :
    ((c.AddMember member).1 = Result.kOverridden ↔ ∃ i, c.liveAt i member.GetName) ∧
    ((c.AddMember member).1 = Result.kAdded ↔ ¬ ∃ i, c.liveAt i member.GetName) := by
  unfold ClassDefinition.AddMember
  cases hf : indexFind c.indexed_members_ member.GetName with
  | none =>
    have hno : ¬ ∃ i, c.liveAt i member.GetName := by
      rintro ⟨i, hi⟩
      rw [← hc.find_iff, hf] at hi
      cases hi
    simp [hno]
  | some idx =>
    have hyes : ∃ i, c.liveAt i member.GetName := ⟨idx, (hc.find_iff _ _).1 hf⟩
    simp [hyes]

theorem AddMember_live (c : ClassDefinition) (member : ClassMember)
    (hc : IndexConsistent c) (i : Nat) (hl : c.liveAt i member.GetName) :
    (c.AddMember member).2.ordered_members_[i]? = some none := by
  have hlt := liveAt_lt c i _ hl
  have hfind := (hc.find_iff _ _).2 hl
  unfold ClassDefinition.AddMember
  rw [hfind]
  simp only
  rw [List.getElem?_append_left (by simpa using hlt)]
  simp [List.getElem?_set, hlt]

theorem AddMember_other (c : ClassDefinition) (member : ClassMember)
    (hc : IndexConsistent c) (i : Nat) (hi : i < c.ordered_members_.length)
    (hl : ¬ c.liveAt i member.GetName) :
    (c.AddMember member).2.ordered_members_[i]? = c.ordered_members_[i]? := by
  unfold ClassDefinition.AddMember
  cases hf : indexFind c.indexed_members_ member.GetName with
  | none =>
    simp only
    rw [List.getElem?_append_left hi]
  | some idx =>
    have hidx : c.liveAt idx member.GetName := (hc.find_iff _ _).1 hf
    have hne : idx ≠ i := by
      rintro rfl
      exact hl hidx
    simp only
    rw [List.getElem?_append_left (by simpa using hi)]
    simp [List.getElem?_set, hne]

theorem AddMember_index (c : ClassDefinition) (member : ClassMember)
    (hc : IndexConsistent c) :
    (c.AddMember member).2.indexed_members_ =
      indexErase c.indexed_members_ member.GetName ++
        [(member.GetName, c.ordered_members_.length)] := by
  unfold ClassDefinition.AddMember
  cases hf : indexFind c.indexed_members_ member.GetName with
  | none =>
    simp only
    have hnone : c.indexed_members_.lookup member.GetName = none := hf
    rw [indexAssign_of_none _ _ _ hnone]
    congr 1
    unfold indexErase
    rw [List.eraseP_of_forall_not]
    intro e he
    rw [List.lookup_eq_none_iff] at hnone
    simpa using hnone e he
  | some idx =>
    simp only
    rw [indexAssign_of_none _ _ _ (lookup_indexErase_self _ _ hc.keys_nodup)]
    simp

theorem AddMember_consistent (c : ClassDefinition) (member : ClassMember)
    (hc : IndexConsistent c) : IndexConsistent (c.AddMember member).2 := by
  have hself := lookup_indexErase_self c.indexed_members_ member.GetName hc.keys_nodup
  constructor
  · rw [AddMember_index c member hc]
    exact keys_nodup_append_entry _ _ _ (keys_nodup_indexErase _ _ hc.keys_nodup) hself
  · intro n i
    unfold indexFind
    rw [AddMember_index c member hc, lookup_append_entry]
    by_cases hn : n = member.GetName
    · subst hn
      rw [hself]
      simp only [if_true]
      constructor
      · intro h
        cases h
        exact ⟨member, AddMember_last c member, rfl⟩
      · rintro ⟨m, hm, hname⟩
        rcases Nat.lt_trichotomy i c.ordered_members_.length with hlt | heq | hgt
        · exfalso
          by_cases hl : c.liveAt i member.GetName
          · rw [AddMember_live c member hc i hl] at hm
            cases hm
          · rw [AddMember_other c member hc i hlt hl] at hm
            exact hl ⟨m, hm, hname⟩
        · rw [heq]
        · exfalso
          rw [List.getElem?_eq_none (by rw [AddMember_length]; omega)] at hm
          cases hm
    · rw [lookup_indexErase_ne _ _ _ hn]
      have hold := hc.find_iff n i
      unfold indexFind at hold
      constructor
      · intro h
        have hfound : c.indexed_members_.lookup n = some i := by
          cases hl : c.indexed_members_.lookup n with
          | none => rw [hl] at h; simp [hn] at h
          | some j => rw [hl] at h; simpa using h
        have hlive := hold.1 hfound
        have hlt := liveAt_lt c i n hlive
        have hnot : ¬ c.liveAt i member.GetName := by
          rintro ⟨m, hm, hname⟩
          obtain ⟨m', hm', hname'⟩ := hlive
          rw [hm] at hm'
          cases hm'
          exact hn (hname'.symm.trans hname)
        obtain ⟨m, hm, hname⟩ := hlive
        exact ⟨m, by rw [AddMember_other c member hc i hlt hnot]; exact hm, hname⟩
      · rintro ⟨m, hm, hname⟩
        have hlive : c.liveAt i n := by
          rcases Nat.lt_trichotomy i c.ordered_members_.length with hlt | heq | hgt
          · by_cases hl : c.liveAt i member.GetName
            · rw [AddMember_live c member hc i hl] at hm
              cases hm
            · rw [AddMember_other c member hc i hlt hl] at hm
              exact ⟨m, hm, hname⟩
          · exfalso
            rw [heq, AddMember_last] at hm
            cases hm
            exact hn hname.symm
          · exfalso
            rw [List.getElem?_eq_none (by rw [AddMember_length]; omega)] at hm
            cases hm
        rw [hold.2 hlive]

theorem Reachable.consistent {c : ClassDefinition} (h : Reachable c) : IndexConsistent c := by
  induction h with
  | init c hslots hindex =>
    constructor
    · simp [hindex]
    · intro n i
      simp [indexFind, hindex, ClassDefinition.liveAt, hslots]
  | step c member _ ih => exact AddMember_consistent c member ih

theorem Reachable.addAll {c : ClassDefinition} (h : Reachable c) (members : List ClassMember) :
    Reachable (c.addAll members) := by
  induction members generalizing c with
  | nil => exact h
  | cons member rest ih => exact ih (Reachable.step c member h)

/-- In a class with a consistent index, two live slots never hold the same name. -/
theorem live_unique (c : ClassDefinition) (hc : IndexConsistent c) (i j : Nat) (n : String)
    (hi : c.liveAt i n) (hj : c.liveAt j n) : i = j := by
  have h1 := (hc.find_iff n i).2 hi
  have h2 := (hc.find_iff n j).2 hj
  rw [h1] at h2
  exact Option.some.inj h2

theorem exists_liveAt_iff (c : ClassDefinition) (n : String) :
    (∃ i, c.liveAt i n) ↔ ∃ m : ClassMember, some m ∈ c.ordered_members_ ∧ m.GetName = n := by
  constructor
  · rintro ⟨i, m, hm, hname⟩
    exact ⟨m, List.mem_iff_getElem?.2 ⟨i, hm⟩, hname⟩
  · rintro ⟨m, hm, hname⟩
    obtain ⟨i, hi⟩ := List.mem_iff_getElem?.1 hm
    exact ⟨i, m, hi, hname⟩

theorem liveAt_AddMember_ne (c : ClassDefinition) (member : ClassMember)
    (hc : IndexConsistent c) (i : Nat) (n : String) (hl : c.liveAt i n)
    (hne : member.GetName ≠ n) : (c.AddMember member).2.liveAt i n := by
  have hlt := liveAt_lt c i n hl
  have hnot : ¬ c.liveAt i member.GetName := by
    rintro ⟨m, hm, hname⟩
    obtain ⟨m', hm', hname'⟩ := hl
    rw [hm] at hm'
    cases hm'
    exact hne (hname.symm.trans hname')
  obtain ⟨m, hm, hname⟩ := hl
  exact ⟨m, by rw [AddMember_other c member hc i hlt hnot]; exact hm, hname⟩

theorem liveAt_addAll_ne (c : ClassDefinition) (h : Reachable c) (members : List ClassMember)
    (i : Nat) (n : String) (hl : c.liveAt i n) (hne : ∀ x ∈ members, x.GetName ≠ n) :
    (c.addAll members).liveAt i n := by
  induction members generalizing c with
  | nil => exact hl
  | cons member rest ih =>
    exact ih (c.AddMember member).2 (Reachable.step c member h)
      (liveAt_AddMember_ne c member h.consistent i n hl (hne member (by simp)))
      (fun x hx => hne x (by simp [hx]))

/-! ## The printer -/

theorem indentation_prepend (pre : List Char) (p : Printer) :
    (p.prepend pre).indentation = p.indentation := rfl

theorem putChar_prepend (pre : List Char) (p : Printer) (c : Char) :
    (p.prepend pre).putChar c = (p.putChar c).prepend pre := by
  have hn : (p.prepend pre).needs_indent = p.needs_indent := rfl
  unfold Printer.putChar
  rw [hn]
  split_ifs <;> simp [Printer.prepend, Printer.indentation, List.append_assoc]

theorem foldl_putChar_prepend (pre : List Char) (cs : List Char) (p : Printer) :
    cs.foldl Printer.putChar (p.prepend pre) = (cs.foldl Printer.putChar p).prepend pre := by
  induction cs generalizing p with
  | nil => rfl
  | cons c rest ih => simp only [List.foldl_cons, putChar_prepend, ih]

theorem Print_prepend (pre : List Char) (p : Printer) (str : String) :
    (p.prepend pre).Print str = (p.Print str).prepend pre :=
  foldl_putChar_prepend pre str.toList p

theorem Indent_prepend (pre : List Char) (p : Printer) :
    (p.prepend pre).Indent = p.Indent.prepend pre := rfl

theorem Undent_prepend (pre : List Char) (p : Printer) :
    (p.prepend pre).Undent = p.Undent.map (fun q => q.prepend pre) := by
  unfold Printer.Undent
  by_cases h : p.indent_level = 0 <;> simp [Printer.prepend, h]

theorem Print_append (p : Printer) (a b : String) :
    p.Print (a ++ b) = (p.Print a).Print b := by
  simp [Printer.Print, String.toList, String.data_append, List.foldl_append]

theorem Println_eq (p : Printer) (str : String) : p.Println str = p.Print (str ++ "\n") := by
  rw [Print_append]; rfl

theorem putChar_indent_level (p : Printer) (c : Char) :
    (p.putChar c).indent_level = p.indent_level := by
  unfold Printer.putChar
  split_ifs <;> rfl

theorem foldl_putChar_indent_level (cs : List Char) (p : Printer) :
    (cs.foldl Printer.putChar p).indent_level = p.indent_level := by
  induction cs generalizing p with
  | nil => rfl
  | cons c rest ih => simp only [List.foldl_cons, ih, putChar_indent_level]

theorem Print_indent_level (p : Printer) (str : String) :
    (p.Print str).indent_level = p.indent_level :=
  foldl_putChar_indent_level str.toList p

theorem Print_newline (p : Printer) :
    p.Print "\n" = { p with out := p.out ++ ['\n'], needs_indent := true } := rfl

theorem Print_brace (p : Printer) (h : p.needs_indent = true) :
    p.Print "\x7d" =
      { out := p.out ++ p.indentation ++ ['\x7d'], indent_level := p.indent_level,
        needs_indent := false } := by
  show Printer.putChar p '\x7d' = _
  unfold Printer.putChar
  simp [h]

theorem Print_needs_indent_of_newline (p : Printer) (str : String) :
    (p.Print (str ++ "\n")).needs_indent = true := by
  rw [Print_append, Print_newline]

/-- A printer at the start of a line is the line-start printer of its depth with
what was already written in front. -/
theorem prepend_lineStart (p : Printer) (h : p.needs_indent = true) :
    p = (Printer.mk [] p.indent_level true).prepend p.out := by
  cases p
  simp only [Printer.prepend, List.append_nil] at *
  rw [h]

theorem Print_out_lineText (p : Printer) (h : p.needs_indent = true) (str : String) :
    (p.Print str).out = p.out ++ Printer.lineText p.indent_level str := by
  conv_lhs => rw [prepend_lineStart p h, Print_prepend]
  rfl

theorem foldl_putChar_depth_zero (cs : List Char) (p : Printer) (h : p.indent_level = 0) :
    (cs.foldl Printer.putChar p).out = p.out ++ cs := by
  induction cs generalizing p with
  | nil => simp
  | cons c rest ih =>
    rw [List.foldl_cons, ih _ (by rw [putChar_indent_level]; exact h)]
    unfold Printer.putChar
    split_ifs <;> simp [Printer.indentation, h]

theorem Print_depth_zero (p : Printer) (h : p.indent_level = 0) (str : String) :
    (p.Print str).out = p.out ++ str.toList :=
  foldl_putChar_depth_zero str.toList p h

theorem foldl_putChar_clean (cs : List Char) (p : Printer) (hcs : ∀ c ∈ cs, c ≠ '\n')
    (hp : p.needs_indent = false) :
    cs.foldl Printer.putChar p = { p with out := p.out ++ cs } := by
  induction cs generalizing p with
  | nil => simp
  | cons c rest ih =>
    have hc : c ≠ '\n' := hcs c (by simp)
    have hstep : p.putChar c = { p with out := p.out ++ [c] } := by
      unfold Printer.putChar
      simp [hc, hp]
    rw [List.foldl_cons, hstep]
    rw [ih { p with out := p.out ++ [c] } (fun x hx => hcs x (by simp [hx])) hp]
    simp

/-- A non-empty line without a newline, written from the start of a line, is the
indentation of the depth, the line, and the newline. -/
theorem lineText_clean (depth : Nat) (str : String) (hne : str ≠ "")
    (hnl : '\n' ∉ str.toList) :
    Printer.lineText depth (str ++ "\n") =
      (List.replicate depth Printer.indentUnit).flatten ++ str.toList ++ ['\n'] := by
  unfold Printer.lineText
  rw [Print_append, Print_newline]
  simp only
  obtain ⟨cs⟩ := str
  cases cs with
  | nil => exact absurd rfl hne
  | cons c rest =>
    have hc : c ≠ '\n' := fun hc => hnl (by simp [String.toList, hc])
    have hrest : ∀ x ∈ rest, x ≠ '\n' := fun x hx hxn =>
      hnl (by simp only [String.toList, List.mem_cons]; right; rw [← hxn]; exact hx)
    show ((rest.foldl Printer.putChar (Printer.putChar _ c)).out ++ ['\n']) = _
    have hstep : Printer.putChar (Printer.mk [] depth true) c =
        Printer.mk ((List.replicate depth Printer.indentUnit).flatten ++ [c]) depth false := by
      unfold Printer.putChar
      simp [hc, Printer.indentation]
    rw [hstep, foldl_putChar_clean rest _ hrest rfl]
    simp [String.toList]

/-- A non-empty line without a newline is written as the indentation, when the
printer is at the start of a line, then the line and the newline. -/
theorem Print_line (p : Printer) (str : String) (hne : str.toList ≠ [])
    (hnl : '\n' ∉ str.toList) :
    (p.Print (str ++ "\n")).out =
      p.out ++ (if p.needs_indent = true then p.indentation else []) ++ str.toList ++
        ['\n'] := by
  rw [Print_append, Print_newline]
  simp only
  obtain ⟨cs⟩ := str
  cases cs with
  | nil => exact absurd rfl hne
  | cons c rest =>
    have hc : c ≠ '\n' := fun hc => hnl (by simp [String.toList, hc])
    have hrest : ∀ x ∈ rest, x ≠ '\n' := fun x hx hxn =>
      hnl (by simp only [String.toList, List.mem_cons]; right; rw [← hxn]; exact hx)
    show ((rest.foldl Printer.putChar (Printer.putChar p c)).out ++ ['\n']) = _
    have hstep : Printer.putChar p c =
        Printer.mk (p.out ++ (if p.needs_indent = true then p.indentation else []) ++ [c])
          p.indent_level false := by
      unfold Printer.putChar
      cases hp : p.needs_indent <;> simp [hc, hp]
    rw [hstep, foldl_putChar_clean rest _ hrest rfl]
    simp [String.toList]

/-! ## Unfolding `empty` and `Print` -/

theorem ClassMember_induct (P : ClassMember → Prop)
    (hmethod : ∀ m, P (ClassMember.method m))
    (hclass : ∀ c : ClassDefinition,
      (∀ m, some m ∈ c.ordered_members_ → P m) → P (ClassMember.classDef c)) :
    ∀ m, P m :=
  @ClassMember.rec P
    (fun c => ∀ m, some m ∈ c.ordered_members_ → P m)
    (fun l => ∀ m, some m ∈ l → P m)
    (fun o => ∀ m, o = some m → P m)
    hmethod
    (fun c ih => hclass c ih)
    (fun _ _ _ _ _ _ ih => ih)
    (fun m h => by simp at h)
    (fun hd tl ih1 ih2 m h => by
      rcases List.mem_cons.1 h with h | h
      · exact ih1 m h.symm
      · exact ih2 m h)
    (fun m h => by cases h)
    (fun v ih m h => by cases h; exact ih)

theorem ClassDefinition_empty_eq (c : ClassDefinition) :
    c.empty = emptyLoop c.ordered_members_ := by
  cases c
  simp [ClassDefinition.empty]

theorem emptyLoop_eq_true_iff (slots : List (Option ClassMember)) :
    emptyLoop slots = true ↔ ∀ m : ClassMember, some m ∈ slots → m.empty = true := by
  induction slots with
  | nil => simp [emptyLoop]
  | cons slot rest ih =>
    cases slot with
    | none => simp [emptyLoop, ih]
    | some member =>
      cases hm : member.empty <;> simp [emptyLoop, hm, ih]

theorem Println_brace (p : Printer) : p.Println " \x7b" = p.Print " \x7b\n" := rfl

theorem Print_declaration (p : Printer) (c : ClassDefinition) :
    (((if c.qualifier_ = ClassQualifier.kStatic then (p.Print "public ").Print "static "
        else p.Print "public ").Print "final class ").Print c.name_).Println " \x7b" =
      p.Print c.declaration := by
  unfold ClassDefinition.declaration
  rw [Println_brace]
  by_cases h : c.qualifier_ = ClassQualifier.kStatic
  · simp only [h, if_true, Print_append]
  · simp only [h, if_false, Print_append]
    rfl

theorem ClassDefinition_Print_eq (c : ClassDefinition) (final : Bool) (printer : Printer) :
    c.Print final printer =
      if c.empty && !c.create_if_empty_ then some printer
      else
        match printLoop c.ordered_members_ final
            ((printer.Print c.processor_.text).Print c.declaration).Indent with
        | none => none
        | some p =>
          match p.Undent with
          | none => none
          | some p => some (p.Print "\x7d") := by
  rw [← Print_declaration, ClassDefinition_empty_eq]
  cases c
  simp only [ClassDefinition.Print, AnnotationProcessor.Print]

theorem printLoop_eq_renderMembers (slots : List (Option ClassMember)) (final : Bool)
    (p : Printer) : printLoop slots final p = renderMembers (slots.filterMap id) final p := by
  induction slots generalizing p with
  | nil => simp [printLoop, renderMembers]
  | cons slot rest ih =>
    cases slot with
    | none => simpa [printLoop] using ih p
    | some member =>
      simp only [printLoop, List.filterMap_cons, id, renderMembers]
      cases member.Print final p with
      | none => rfl
      | some q => exact ih _

theorem renderMembers_needs_indent (members : List ClassMember) (final : Bool)
    (p q : Printer) (h : renderMembers members final p = some q)
    (hp : p.needs_indent = true) : q.needs_indent = true := by
  induction members generalizing p with
  | nil =>
    simp only [renderMembers, Option.some.injEq] at h
    rw [← h]; exact hp
  | cons member rest ih =>
    simp only [renderMembers] at h
    cases hm : member.Print final p with
    | none => rw [hm] at h; cases h
    | some r =>
      rw [hm] at h
      exact ih _ h rfl

/-! ## `MethodDefinition::Print` -/

theorem foldl_Println (statements : List String) (q : Printer) (hq : q.needs_indent = true) :
    statements.foldl (fun r statement => r.Println statement) q =
      { out := q.out ++
          (statements.map (fun st => Printer.lineText q.indent_level (st ++ "\n"))).flatten,
        indent_level := q.indent_level, needs_indent := true } := by
  induction statements generalizing q with
  | nil =>
    cases q
    simp only at hq
    simp [hq]
  | cons st rest ih =>
    have hn : (q.Println st).needs_indent = true := by
      rw [Println_eq]; exact Print_needs_indent_of_newline q st
    have hl : (q.Println st).indent_level = q.indent_level := by
      rw [Println_eq]; exact Print_indent_level q _
    have ho : (q.Println st).out = q.out ++ Printer.lineText q.indent_level (st ++ "\n") := by
      rw [Println_eq]; exact Print_out_lineText q hq _
    rw [List.foldl_cons, ih _ hn, hl, ho]
    simp [List.append_assoc]

theorem MethodDefinition_Print_eq (m : MethodDefinition) (final : Bool) (p : Printer) :
    m.Print final p =
      some { out := (p.Print (m.signature ++ " \x7b\n")).out ++
                (m.statements_.map
                  (fun st => Printer.lineText (p.indent_level + 1) (st ++ "\n"))).flatten ++
                p.indentation ++ ['\x7d'],
             indent_level := p.indent_level, needs_indent := false } := by
  have hsig : (p.Print m.signature).Println " \x7b" = p.Print (m.signature ++ " \x7b\n") := by
    rw [Print_append]; rfl
  have hneeds : ((p.Print (m.signature ++ " \x7b\n")).Indent).needs_indent = true := by
    rw [show m.signature ++ " \x7b\n" = (m.signature ++ " \x7b") ++ "\n" by
      rw [String.append_assoc]; rfl]
    exact Print_needs_indent_of_newline p _
  unfold MethodDefinition.Print
  simp only
  rw [hsig, foldl_Println _ _ hneeds]
  simp only [Printer.Indent, Print_indent_level, Printer.Undent]
  simp only [Nat.add_one_ne_zero, if_false, Nat.add_sub_cancel]
  rw [Print_brace _ rfl]
  simp [Printer.indentation]

/-! ## Printing is total, balanced, and independent of what was written before -/

theorem renderMembers_balanced (members : List ClassMember) (final : Bool)
    (hmembers : ∀ m ∈ members, ∀ p : Printer,
      ∃ q, m.Print final p = some q ∧ q.indent_level = p.indent_level)
    (p : Printer) :
    ∃ q, renderMembers members final p = some q ∧ q.indent_level = p.indent_level := by
  induction members generalizing p with
  | nil => exact ⟨p, rfl, rfl⟩
  | cons member rest ih =>
    obtain ⟨r, hr, hrl⟩ := hmembers member (by simp) p
    obtain ⟨q, hq, hql⟩ := ih (fun m hm => hmembers m (by simp [hm])) (r.Print "\n")
    refine ⟨q, ?_, ?_⟩
    · simp only [renderMembers, hr]; exact hq
    · rw [hql, Print_indent_level, hrl]

theorem ClassMember_Print_balanced (member : ClassMember) (final : Bool) :
    ∀ p : Printer, ∃ q, member.Print final p = some q ∧ q.indent_level = p.indent_level := by
  induction member using ClassMember_induct with
  | hmethod m =>
    intro p
    rw [ClassMember.Print, MethodDefinition_Print_eq]
    exact ⟨_, rfl, rfl⟩
  | hclass c ih =>
    intro p
    rw [ClassMember.Print, ClassDefinition_Print_eq]
    by_cases he : (c.empty && !c.create_if_empty_) = true
    · exact ⟨p, by simp [he], rfl⟩
    · obtain ⟨q, hq, hql⟩ := renderMembers_balanced (c.ordered_members_.filterMap id) final
        (fun m hm => ih m (by simpa using hm))
        ((p.Print c.processor_.text).Print c.declaration).Indent
      have hlevel : q.indent_level = p.indent_level + 1 := by
        rw [hql]; simp [Printer.Indent, Print_indent_level]
      refine ⟨({ q with indent_level := p.indent_level } : Printer).Print "\x7d", ?_, ?_⟩
      · simp only [he, printLoop_eq_renderMembers, hq, Printer.Undent, hlevel]
        simp
      · rw [Print_indent_level]

theorem ClassDefinition_Print_balanced (c : ClassDefinition) (final : Bool) (p : Printer) :
    ∃ q, c.Print final p = some q ∧ q.indent_level = p.indent_level := by
  have h := ClassMember_Print_balanced (ClassMember.classDef c) final p
  rw [ClassMember.Print] at h
  exact h

theorem renderMembers_prepend (members : List ClassMember) (final : Bool)
    (hmembers : ∀ m ∈ members, ∀ (p : Printer) (pre : List Char),
      m.Print final (p.prepend pre) = (m.Print final p).map (fun q => q.prepend pre))
    (p : Printer) (pre : List Char) :
    renderMembers members final (p.prepend pre) =
      (renderMembers members final p).map (fun q => q.prepend pre) := by
  induction members generalizing p with
  | nil => rfl
  | cons member rest ih =>
    simp only [renderMembers, hmembers member (by simp) p pre]
    cases member.Print final p with
    | none => rfl
    | some r =>
      simp only [Option.map_some']
      rw [Print_prepend]
      exact ih (fun m hm => hmembers m (by simp [hm])) _

theorem ClassMember_Print_prepend (member : ClassMember) (final : Bool) :
    ∀ (p : Printer) (pre : List Char),
      member.Print final (p.prepend pre) = (member.Print final p).map (fun q => q.prepend pre) := by
  induction member using ClassMember_induct with
  | hmethod m =>
    intro p pre
    simp only [ClassMember.Print, MethodDefinition_Print_eq, Print_prepend]
    simp [Printer.prepend, Printer.indentation, List.append_assoc]
  | hclass c ih =>
    intro p pre
    simp only [ClassMember.Print, ClassDefinition_Print_eq]
    by_cases he : (c.empty && !c.create_if_empty_) = true
    · simp [he]
    · simp only [he, printLoop_eq_renderMembers, Print_prepend, Indent_prepend]
      rw [renderMembers_prepend _ final (fun m hm => ih m (by simpa using hm))]
      cases renderMembers (c.ordered_members_.filterMap id) final
          ((p.Print c.processor_.text).Print c.declaration).Indent with
      | none => rfl
      | some q =>
        simp only [Option.map_some', Undent_prepend]
        cases q.Undent with
        | none => rfl
        | some r => simp [Print_prepend]

theorem ClassDefinition_Print_prepend (c : ClassDefinition) (final : Bool) (p : Printer)
    (pre : List Char) :
    c.Print final (p.prepend pre) = (c.Print final p).map (fun q => q.prepend pre) := by
  have h := ClassMember_Print_prepend (ClassMember.classDef c) final p pre
  rw [ClassMember.Print] at h
  exact h


/-! ## Live members after `AddMember` -/

theorem filterMap_set_none (slots : List (Option ClassMember)) (idx : Nat) (n : String)
    (hidx : ∃ x : ClassMember, slots[idx]? = some (some x) ∧ x.GetName = n)
    (huniq : ∀ (j : Nat) (y : ClassMember), slots[j]? = some (some y) → y.GetName = n → j = idx) :
    (slots.set idx none).filterMap id =
      (slots.filterMap id).filter (fun x => x.GetName != n) := by
  induction slots generalizing idx with
  | nil =>
    obtain ⟨x, hx, -⟩ := hidx
    simp at hx
  | cons slot rest ih =>
    cases idx with
    | zero =>
      obtain ⟨x, hx, hxn⟩ := hidx
      simp only [List.getElem?_cons_zero, Option.some.injEq] at hx
      subst hx
      simp only [List.set_cons_zero, List.filterMap_cons, id]
      rw [List.filter_cons_of_neg (by simp [hxn])]
      symm
      rw [List.filter_eq_self]
      intro y hy
      simp only [List.mem_filterMap, id] at hy
      obtain ⟨o, ho, rfl⟩ := hy
      obtain ⟨j, hj⟩ := List.mem_iff_getElem?.1 ho
      simp only [bne_iff_ne, ne_eq]
      intro hyn
      have := huniq (j + 1) y (by simpa using hj) hyn
      omega
    | succ k =>
      have hrest := ih k (by simpa using hidx)
        (fun j y hj hy => by
          have := huniq (j + 1) y (by simpa using hj) hy
          omega)
      cases slot with
      | none => simpa using hrest
      | some y =>
        have hy : y.GetName ≠ n := by
          intro hyn
          have := huniq 0 y (by simp) hyn
          omega
        simp only [List.set_cons_succ, List.filterMap_cons, id]
        rw [List.filter_cons_of_pos (by simpa using hy), hrest]

theorem liveMembers_AddMember (c : ClassDefinition) (member : ClassMember)
    (hc : IndexConsistent c) :
    (c.AddMember member).2.liveMembers =
      c.liveMembers.filter (fun x => x.GetName != member.GetName) ++ [member] := by
  unfold ClassDefinition.liveMembers ClassDefinition.AddMember
  cases hf : indexFind c.indexed_members_ member.GetName with
  | none =>
    simp only [List.filterMap_append, List.filterMap_cons, id, List.filterMap_nil]
    congr 1
    symm
    rw [List.filter_eq_self]
    intro y hy
    simp only [List.mem_filterMap, id] at hy
    obtain ⟨o, ho, rfl⟩ := hy
    obtain ⟨j, hj⟩ := List.mem_iff_getElem?.1 ho
    simp only [bne_iff_ne, ne_eq]
    intro hyn
    have := (hc.find_iff member.GetName j).2 ⟨y, hj, hyn⟩
    rw [hf] at this
    cases this
  | some idx =>
    simp only [List.filterMap_append, List.filterMap_cons, id, List.filterMap_nil]
    congr 1
    exact filterMap_set_none _ idx _ ((hc.find_iff _ _).1 hf)
      (fun j y hj hy => live_unique c hc j idx _ ⟨y, hj, hy⟩ ((hc.find_iff _ _).1 hf))

theorem Print_withSlots_live (c : ClassDefinition) (final : Bool) (p : Printer) :
    c.Print final p = (c.withSlots (c.liveMembers.map some)).Print final p := by
  have hlive : (c.liveMembers.map some).filterMap id = c.ordered_members_.filterMap id := by
    unfold ClassDefinition.liveMembers
    generalize c.ordered_members_.filterMap id = l
    induction l with
    | nil => rfl
    | cons a rest ih => simp [ih]
  have hempty : emptyLoop (c.liveMembers.map some) = emptyLoop c.ordered_members_ := by
    unfold ClassDefinition.liveMembers
    generalize c.ordered_members_ = l
    induction l with
    | nil => rfl
    | cons slot rest ih =>
      cases slot with
      | none => simpa [emptyLoop] using ih
      | some member => simp [emptyLoop, ih]
  rw [ClassDefinition_Print_eq, ClassDefinition_Print_eq, ClassDefinition_empty_eq,
    ClassDefinition_empty_eq, printLoop_eq_renderMembers, printLoop_eq_renderMembers]
  simp only [ClassDefinition.withSlots, hlive, hempty]
  rfl

theorem Print_congr (c d : ClassDefinition) (final : Bool) (p : Printer)
    (hproc : c.processor_ = d.processor_) (hname : c.name_ = d.name_)
    (hqual : c.qualifier_ = d.qualifier_) (hcreate : c.create_if_empty_ = d.create_if_empty_)
    (hslots : c.ordered_members_ = d.ordered_members_) :
    c.Print final p = d.Print final p := by
  rw [ClassDefinition_Print_eq, ClassDefinition_Print_eq, ClassDefinition_empty_eq,
    ClassDefinition_empty_eq]
  unfold ClassDefinition.declaration
  rw [hproc, hname, hqual, hcreate, hslots]

/-! ## The claims on `AddMember` -/

/-- C1: on a class reachable from an empty class by `AddMember` calls,
`AddMember(m)` returns `kOverridden` exactly when some live slot holds a member
named `m.name` just before the call, and `kAdded` exactly when none does. -/
theorem AddMember_overridden_iff_live (c : ClassDefinition) (member : ClassMember)
    (h : Reachable c) :
    ((c.AddMember member).1 = Result.kOverridden ↔
      ∃ m : ClassMember, some m ∈ c.ordered_members_ ∧ m.GetName = member.GetName) ∧
    ((c.AddMember member).1 = Result.kAdded ↔
      ¬ ∃ m : ClassMember, some m ∈ c.ordered_members_ ∧ m.GetName = member.GetName) := by
  have hr := AddMember_result c member h.consistent
  rw [exists_liveAt_iff] at hr
  exact hr

/-- C9: after any sequence of `AddMember` calls on a class that started with no
members, two live slots holding members of the same name are the same slot; so
the names of the live members, in slot order, are pairwise distinct. -/
theorem AddMember_live_names_unique (c : ClassDefinition) (h : Reachable c) :
    (∀ (i j : Nat) (a b : ClassMember),
      c.ordered_members_[i]? = some (some a) → c.ordered_members_[j]? = some (some b) →
      a.GetName = b.GetName → i = j) ∧
    (c.liveMembers.map ClassMember.GetName).Nodup := by
  constructor
  · intro i j a b hi hj hname
    exact live_unique c h.consistent i j b.GetName ⟨a, hi, hname⟩ ⟨b, hj, rfl⟩
  · induction h with
    | init c hslots hindex => simp [ClassDefinition.liveMembers, hslots]
    | step c member hreach ih =>
      rw [liveMembers_AddMember c member hreach.consistent, List.map_append,
        List.nodup_append]
      refine ⟨(ih.sublist ((List.filter_sublist _).map _)), by simp, ?_⟩
      intro n hn hm
      simp only [List.map_cons, List.map_nil, List.mem_singleton] at hm
      subst hm
      obtain ⟨x, hx, hxn⟩ := List.mem_map.1 hn
      have := (List.mem_filter.1 hx).2
      simp [hxn] at this

/-- C10: on a reachable class `AddMember(m)` appends exactly one slot, which
holds `m`; a slot that held a live member named `m.name` (there is at most one)
becomes a tombstone in place; every other slot keeps its index and content; the
name, qualifier, `create_if_empty_` and comment block are unchanged. -/
theorem AddMember_frame (c : ClassDefinition) (member : ClassMember) (h : Reachable c) :
    (c.AddMember member).2.ordered_members_.length = c.ordered_members_.length + 1 ∧
    (c.AddMember member).2.ordered_members_[c.ordered_members_.length]? = some (some member) ∧
    (∀ i, c.liveAt i member.GetName →
      (c.AddMember member).2.ordered_members_[i]? = some none) ∧
    (∀ i j, c.liveAt i member.GetName → c.liveAt j member.GetName → i = j) ∧
    (∀ i, i < c.ordered_members_.length → ¬ c.liveAt i member.GetName →
      (c.AddMember member).2.ordered_members_[i]? = c.ordered_members_[i]?) ∧
    ((c.AddMember member).1 = Result.kAdded →
      (c.AddMember member).2.ordered_members_ = c.ordered_members_ ++ [some member]) ∧
    (c.AddMember member).2.name_ = c.name_ ∧
    (c.AddMember member).2.qualifier_ = c.qualifier_ ∧
    (c.AddMember member).2.create_if_empty_ = c.create_if_empty_ ∧
    (c.AddMember member).2.processor_ = c.processor_ := by
  refine ⟨AddMember_length c member, AddMember_last c member,
    fun i hl => AddMember_live c member h.consistent i hl,
    fun i j hi hj => live_unique c h.consistent i j _ hi hj,
    fun i hi hl => AddMember_other c member h.consistent i hi hl, ?_,
    AddMember_fields c member⟩
  unfold ClassDefinition.AddMember
  cases indexFind c.indexed_members_ member.GetName <;> simp

/-- C2: on a reachable class, add a member `a` named `n`, then any members not
named `n`, then a member `b` named `n`: the second call returns `kOverridden`,
`b` is in the last slot, and a live slot holding a member named `n` is that
last slot and holds `b`; every other slot lies before it. -/
theorem AddMember_twice (c : ClassDefinition) (h : Reachable c) (a b : ClassMember)
    (between : List ClassMember) (hname : a.GetName = b.GetName)
    (hbetween : ∀ x ∈ between, x.GetName ≠ a.GetName) :
    (((c.AddMember a).2.addAll between).AddMember b).1 = Result.kOverridden ∧
    (((c.AddMember a).2.addAll between).AddMember b).2.ordered_members_.getLast? =
      some (some b) ∧
    (∀ i m, (((c.AddMember a).2.addAll between).AddMember b).2.ordered_members_[i]? =
        some (some m) → m.GetName = b.GetName →
      i = ((c.AddMember a).2.addAll between).ordered_members_.length ∧ m = b) ∧
    (∀ i m, (((c.AddMember a).2.addAll between).AddMember b).2.ordered_members_[i]? =
        some (some m) → m.GetName ≠ b.GetName →
      i < ((c.AddMember a).2.addAll between).ordered_members_.length ∧
      ((c.AddMember a).2.addAll between).ordered_members_[i]? = some (some m)) := by
  have h1 : Reachable (c.AddMember a).2 := Reachable.step c a h
  have hlive1 : (c.AddMember a).2.liveAt c.ordered_members_.length a.GetName :=
    ⟨a, AddMember_last c a, rfl⟩
  generalize hd : (c.AddMember a).2.addAll between = d
  have hdr : Reachable d := by rw [← hd]; exact h1.addAll between
  have hdl : d.liveAt c.ordered_members_.length b.GetName := by
    rw [← hd, ← hname]
    exact liveAt_addAll_ne _ h1 between _ _ hlive1 hbetween
  have hcons := AddMember_consistent d b hdr.consistent
  have hlast := AddMember_last d b
  have hlen := AddMember_length d b
  refine ⟨(AddMember_result d b hdr.consistent).1.2 ⟨_, hdl⟩, ?_, ?_, ?_⟩
  · rw [List.getLast?_eq_getElem?, hlen]
    simpa using hlast
  · intro i m hm hn
    have hi := live_unique _ hcons i d.ordered_members_.length b.GetName ⟨m, hm, hn⟩
      ⟨b, hlast, rfl⟩
    subst hi
    rw [hlast] at hm
    cases hm
    exact ⟨rfl, rfl⟩
  · intro i m hm hn
    have hlt : i < d.ordered_members_.length := by
      rcases Nat.lt_trichotomy i d.ordered_members_.length with hlt | heq | hgt
      · exact hlt
      · exfalso
        rw [heq, hlast] at hm
        cases hm
        exact hn rfl
      · exfalso
        rw [List.getElem?_eq_none (by omega)] at hm
        cases hm
    refine ⟨hlt, ?_⟩
    by_cases hl : d.liveAt i b.GetName
    · rw [AddMember_live d b hdr.consistent i hl] at hm
      cases hm
    · rw [AddMember_other d b hdr.consistent i hlt hl] at hm
      exact hm

/-! ## Witnesses for the claims on `AddMember` -/

/-- Witness for C1: adding a second member named `bar` to a class holding the
method `bar()` is an override. -/
theorem AddMember_overridden_iff_live_witness :
    (overrideBase.AddMember (ClassMember.method
      { name := "bar", signature := "int bar()", statements_ := [] })).1 =
      Result.kOverridden :=
  (AddMember_overridden_iff_live overrideBase _
    (Reachable.step _ _ (Reachable.init _ rfl rfl))).1.2
    ⟨ClassMember.method { name := "bar", signature := "void bar()", statements_ := [] },
      List.Mem.head _, rfl⟩

/-- Witness for C9: the class built by adding `bar()`, `foo()` and the nested
class `foo`. -/
theorem AddMember_live_names_unique_witness :
    (((overrideBase.AddMember (ClassMember.method fooMethod)).2.AddMember
        (ClassMember.classDef fooClass)).2.liveMembers.map ClassMember.GetName).Nodup :=
  (AddMember_live_names_unique _
    (Reachable.step _ _ (Reachable.step _ _ (Reachable.step _ _
      (Reachable.init _ rfl rfl))))).2

/-- Witness for C10: adding a second member named `bar` to a class holding the
method `bar()` in slot 0 leaves a tombstone in slot 0. -/
theorem AddMember_frame_witness :
    (overrideBase.AddMember (ClassMember.method
      { name := "bar", signature := "int bar()", statements_ := [] })).2.ordered_members_[0]? =
      some none :=
  (AddMember_frame overrideBase _ (Reachable.step _ _ (Reachable.init _ rfl rfl))).2.2.1 0
    ⟨ClassMember.method { name := "bar", signature := "void bar()", statements_ := [] },
      rfl, rfl⟩

/-- Witness for C2: `foo()`, then `bar()`, then the nested class `foo`. -/
theorem AddMember_twice_witness :
    ((((ClassDefinition.new "R" ClassQualifier.kNone false).AddMember
        (ClassMember.method fooMethod)).2.addAll
        [ClassMember.method { name := "bar", signature := "void bar()", statements_ := [] }]
      ).AddMember (ClassMember.classDef fooClass)).1 = Result.kOverridden :=
  (AddMember_twice (ClassDefinition.new "R" ClassQualifier.kNone false)
    (Reachable.init _ rfl rfl) (ClassMember.method fooMethod) (ClassMember.classDef fooClass)
    [ClassMember.method { name := "bar", signature := "void bar()", statements_ := [] }]
    rfl
    (fun x hx => by
      rw [List.mem_singleton.1 hx]
      decide)).1

/-! ## The claims on `empty`, `Print` and `WriteJavaFile` -/

set_option maxRecDepth 100000

theorem Print_of_elided (c : ClassDefinition) (final : Bool) (p : Printer)
    (hempty : c.empty = true) (hcreate : c.create_if_empty_ = false) :
    c.Print final p = some p := by
  rw [ClassDefinition_Print_eq]
  simp [hempty, hcreate]

/-- C4: a class whose `empty()` is true and whose `create_if_empty_` is false
prints nothing: `Print` returns the printer it was given, with the same output,
depth and line-start flag. -/
theorem Print_elided (c : ClassDefinition) (final : Bool) (p : Printer)
    (hempty : c.empty = true) (hcreate : c.create_if_empty_ = false) :
    c.Print final p = some p :=
  Print_of_elided c final p hempty hcreate

/-- Witness for C4: a class holding only a tombstone and an empty nested class. -/
theorem Print_elided_witness :
    (elidedExample.empty = true ∧ elidedExample.create_if_empty_ = false) ∧
    elidedExample.Print true (Printer.mk ['x'] 2 false) = some (Printer.mk ['x'] 2 false) :=
  ⟨⟨by decide, rfl⟩, Print_elided elidedExample true (Printer.mk ['x'] 2 false) (by decide) rfl⟩

/-- C5 as stated fails: a class with no members and `create_if_empty_` set has
`empty()` true although the claim's second condition is false. -/
theorem empty_create_if_empty_counterexample :
    ¬ ((ClassDefinition.new "R" ClassQualifier.kNone true).empty = true ↔
        ((∀ m : ClassMember,
            some m ∈ (ClassDefinition.new "R" ClassQualifier.kNone true).ordered_members_ →
              m.empty = true) ∧
          (ClassDefinition.new "R" ClassQualifier.kNone true).create_if_empty_ = false)) := by
  intro h
  have h2 := (h.1 (by decide)).2
  exact absurd h2 (by decide)

/-- C5, amended: `empty()` is true exactly when every live member's own
`empty()` is true, where a nested class answers with its own `empty()` and a
method always answers false; `create_if_empty_` plays no part in it. -/
theorem empty_iff_live_members_empty (c : ClassDefinition) :
    (c.empty = true ↔ ∀ m : ClassMember, some m ∈ c.ordered_members_ → m.empty = true) ∧
    (∀ k : ClassDefinition, (ClassMember.classDef k).empty = k.empty) ∧
    (∀ mt : MethodDefinition, (ClassMember.method mt).empty = false) ∧
    (∀ b : Bool, ClassDefinition.empty { c with create_if_empty_ := b } = c.empty) := by
  refine ⟨?_, ?_, ?_, ?_⟩
  · rw [ClassDefinition_empty_eq]
    exact emptyLoop_eq_true_iff _
  · intro k
    rw [ClassMember.empty]
  · intro mt
    rw [ClassMember.empty]
  · intro b
    rw [ClassDefinition_empty_eq, ClassDefinition_empty_eq]

/-- C7: `MethodDefinition::Print` writes the signature followed by ` {` and a
newline, then each statement, in append order, as a line of its own one level
deeper, then the closing brace at the original indentation with no newline
after it, and returns at the original depth. A signature without a newline
reaches the sink verbatim; a non-empty statement without a newline is the
deeper indentation, the statement and a newline. The name plays
no part in the output, and `AppendStatement` stores the statements verbatim in
call order. -/
theorem MethodDefinition_Print_text (m : MethodDefinition) (final : Bool) (p : Printer) :
    m.Print final p =
      some { out := (p.Print (m.signature ++ " \x7b\n")).out ++
                (m.statements_.map
                  (fun st => Printer.lineText (p.indent_level + 1) (st ++ "\n"))).flatten ++
                p.indentation ++ ['\x7d'],
             indent_level := p.indent_level, needs_indent := false } ∧
    ('\n' ∉ m.signature.toList →
      (p.Print (m.signature ++ " \x7b\n")).out =
        p.out ++ (if p.needs_indent = true then p.indentation else []) ++
          m.signature.toList ++ [' ', '\x7b', '\n']) ∧
    (∀ st ∈ m.statements_, st ≠ "" → '\n' ∉ st.toList →
      Printer.lineText (p.indent_level + 1) (st ++ "\n") =
        (List.replicate (p.indent_level + 1) Printer.indentUnit).flatten ++ st.toList ++
          ['\n']) ∧
    (∀ name : String, ({ m with name := name } : MethodDefinition).Print final p =
      m.Print final p) ∧
    (∀ statements : List String,
      (statements.foldl MethodDefinition.AppendStatement m).statements_ =
        m.statements_ ++ statements) := by
  refine ⟨MethodDefinition_Print_eq m final p, ?_, ?_, ?_, ?_⟩
  · intro hnl
    have hsplit : m.signature ++ " \x7b\n" = (m.signature ++ " \x7b") ++ "\n" := by
      rw [String.append_assoc]; rfl
    rw [hsplit, Print_line p _ (by simp [String.toList, String.data_append])
      (by
        simp only [String.toList, String.data_append, List.mem_append, not_or]
        exact ⟨hnl, by decide⟩)]
    simp [String.toList, String.data_append]
  · intro st _ hne hnl
    exact lineText_clean _ st hne hnl
  · intro name
    rfl
  · intro statements
    induction statements generalizing m with
    | nil => simp
    | cons st rest ih =>
      rw [List.foldl_cons, ih]
      simp [MethodDefinition.AppendStatement]

/-- C3: a class that is not elided and has an empty comment block prints its
declaration line (`public `, `static ` exactly for `kStatic`, `final class
<name> {`, newline), then, one level deeper, each live member in slot order
followed by a newline, then the closing brace at the original indentation with
no newline after it. When the name holds no newline the declaration line
reaches the sink verbatim, after the indentation a line start calls for. -/
theorem Print_class_text (c : ClassDefinition) (final : Bool) (p : Printer)
    (hshown : c.empty = false ∨ c.create_if_empty_ = true)
    (hcomment : c.processor_.text = "") :
    ∃ body : Printer,
      renderMembers c.liveMembers final (p.Print c.declaration).Indent = some body ∧
      body.indent_level = p.indent_level + 1 ∧
      c.Print final p =
        some { out := body.out ++ p.indentation ++ ['\x7d'],
               indent_level := p.indent_level, needs_indent := false } ∧
      ('\n' ∉ c.name_.toList →
        (p.Print c.declaration).out =
          p.out ++ (if p.needs_indent = true then p.indentation else []) ++
            c.declaration.toList) := by
  have hd : c.declaration =
        ("public " ++ (if c.qualifier_ = ClassQualifier.kStatic then "static " else "") ++
          "final class " ++ c.name_ ++ " \x7b") ++ "\n" := by
    unfold ClassDefinition.declaration
    rw [String.append_assoc _ " \x7b" "\n"]
    rfl
  have htext : '\n' ∉ c.name_.toList →
      (p.Print c.declaration).out =
        p.out ++ (if p.needs_indent = true then p.indentation else []) ++
          c.declaration.toList := by
    intro hnl
    have hq : '\n' ∉ (if c.qualifier_ = ClassQualifier.kStatic then "static " else "").toList := by
      split_ifs <;> decide
    rw [hd, Print_line p _ (by simp [String.toList, String.data_append])
      (by
        simp only [String.toList, String.data_append, List.mem_append, not_or] at hnl hq ⊢
        exact ⟨⟨⟨⟨by decide, hq⟩, by decide⟩, hnl⟩, by decide⟩)]
    simp [String.toList, String.data_append]
  have hstart : ((p.Print c.declaration).Indent).needs_indent = true := by
    have hd : c.declaration =
        ("public " ++ (if c.qualifier_ = ClassQualifier.kStatic then "static " else "") ++
          "final class " ++ c.name_ ++ " \x7b") ++ "\n" := by
      unfold ClassDefinition.declaration
      rw [String.append_assoc _ " \x7b" "\n"]
      rfl
    rw [hd]
    exact Print_needs_indent_of_newline p _
  obtain ⟨body, hbody, hlevel⟩ := renderMembers_balanced c.liveMembers final
    (fun m _ q => ClassMember_Print_balanced m final q) (p.Print c.declaration).Indent
  have hneeds := renderMembers_needs_indent _ _ _ _ hbody hstart
  have hlevel2 : body.indent_level = p.indent_level + 1 := by
    rw [hlevel]; simp [Printer.Indent, Print_indent_level]
  refine ⟨body, hbody, hlevel2, ?_, htext⟩
  have hcond : (c.empty && !c.create_if_empty_) = false := by
    rcases hshown with h | h <;> simp [h]
  have hnoc : p.Print c.processor_.text = p := by rw [hcomment]; rfl
  rw [ClassDefinition_Print_eq, hcond, hnoc, printLoop_eq_renderMembers]
  simp only [Bool.false_eq_true, if_false]
  change (match renderMembers c.liveMembers final (p.Print c.declaration).Indent with
    | none => none
    | some q => match q.Undent with
      | none => none
      | some r => some (r.Print "\x7d")) = _
  rw [hbody]
  simp only [Printer.Undent, hlevel2, Nat.add_one_ne_zero, if_false, Nat.add_sub_cancel]
  rw [Print_brace (Printer.mk body.out p.indent_level body.needs_indent) hneeds]
  rfl

/-- Witness for C3: the root class `R` with the static nested class `string`
holding the method `getString()` with the statement `return "x";`. -/
theorem Print_class_text_witness :
    rootR.Print false (Printer.over []) =
      some { out := ("public final class R \x7b\n" ++
                     " public static final class string \x7b\n" ++
                     "  public String getString() \x7b\n" ++
                     "   return \"x\";\n" ++
                     "  \x7d\n" ++
                     " \x7d\n" ++
                     "\x7d").toList,
             indent_level := 0, needs_indent := false } := by
  obtain ⟨body, hbody, -, hprint, -⟩ :=
    Print_class_text rootR false (Printer.over []) (Or.inl (by decide)) rfl
  have hb : renderMembers rootR.liveMembers false
      ((Printer.over []).Print rootR.declaration).Indent =
      some { out := ("public final class R \x7b\n" ++
                     " public static final class string \x7b\n" ++
                     "  public String getString() \x7b\n" ++
                     "   return \"x\";\n" ++
                     "  \x7d\n" ++
                     " \x7d\n").toList,
             indent_level := 1, needs_indent := true } := by rfl
  rw [hb] at hbody
  cases hbody
  rw [hprint]
  rfl

/-- C8: `Print` never renders a tombstone: the output is that of the class
whose slots are the live members in slot order. After adding a method and then
a nested class of the same name to a reachable class, the live members are the
earlier live members of other names followed by the nested class, the method is
not among them, and the output is that of the class with exactly those slots. -/
theorem Print_skips_tombstones (c : ClassDefinition) (h : Reachable c) (final : Bool)
    (p : Printer) (f : MethodDefinition) (k : ClassDefinition) (hname : f.name = k.name_) :
    c.Print final p = (c.withSlots (c.liveMembers.map some)).Print final p ∧
    ((c.AddMember (ClassMember.method f)).2.AddMember (ClassMember.classDef k)).2.liveMembers =
      c.liveMembers.filter (fun x => x.GetName != k.name_) ++ [ClassMember.classDef k] ∧
    ClassMember.method f ∉
      ((c.AddMember (ClassMember.method f)).2.AddMember (ClassMember.classDef k)).2.liveMembers ∧
    ((c.AddMember (ClassMember.method f)).2.AddMember (ClassMember.classDef k)).2.Print final p =
      (c.withSlots ((c.liveMembers.filter (fun x => x.GetName != k.name_) ++
        [ClassMember.classDef k]).map some)).Print final p := by
  have h1 : Reachable (c.AddMember (ClassMember.method f)).2 := Reachable.step c _ h
  have hlive : ((c.AddMember (ClassMember.method f)).2.AddMember
      (ClassMember.classDef k)).2.liveMembers =
      c.liveMembers.filter (fun x => x.GetName != k.name_) ++ [ClassMember.classDef k] := by
    rw [liveMembers_AddMember _ _ h1.consistent, liveMembers_AddMember _ _ h.consistent]
    simp only [ClassMember.GetName, hname, List.filter_append, List.filter_filter,
      Bool.and_self, List.filter_cons, List.filter_nil, bne_self_eq_false,
      Bool.false_eq_true, if_false, List.append_nil]
  refine ⟨Print_withSlots_live c final p, hlive, ?_, ?_⟩
  · rw [hlive]
    simp only [List.mem_append, List.mem_filter, List.mem_singleton, not_or]
    constructor
    · rintro ⟨-, hne⟩
      simp [ClassMember.GetName, hname] at hne
    · intro heq
      cases heq
  · rw [Print_withSlots_live, hlive]
    have f1 := AddMember_fields c (ClassMember.method f)
    have f2 := AddMember_fields (c.AddMember (ClassMember.method f)).2 (ClassMember.classDef k)
    apply Print_congr
    · exact f2.2.2.2.trans f1.2.2.2
    · exact f2.1.trans f1.1
    · exact f2.2.1.trans f1.2.1
    · exact f2.2.2.1.trans f1.2.2.1
    · rfl

/-- Witness for C8: the method `foo()` and then the nested class `foo` are added
to a root that already holds the method `bar()`; only `bar()` and the nested
class are printed, the nested class last. -/
theorem Print_skips_tombstones_witness :
    ((overrideBase.AddMember (ClassMember.method fooMethod)).2.AddMember
        (ClassMember.classDef fooClass)).2.Print false (Printer.over []) =
      some { out := ("public final class R \x7b\n" ++
                     " void bar() \x7b\n" ++
                     " \x7d\n" ++
                     " public static final class foo \x7b\n" ++
                     " \x7d\n" ++
                     "\x7d").toList,
             indent_level := 0, needs_indent := false } := by
  rw [(Print_skips_tombstones overrideBase
    (Reachable.step _ _ (Reachable.init _ rfl rfl)) false (Printer.over [])
    fooMethod fooClass rfl).2.2.2]
  decide

/-- C6: on an empty sink `WriteJavaFile` writes the warning header (which ends
in a blank line), `package <package>;` and a newline, one empty line, and then
exactly what the root's `Print` writes on a fresh printer at depth zero; for a
root that is empty and not `create_if_empty_` that is the whole output. -/
theorem WriteJavaFile_text (root : ClassDefinition) (package : String) (final : Bool) :
    (∃ q : Printer, root.Print final (Printer.over []) = some q ∧
      WriteJavaFile root package final [] =
        some (sWarningHeader.toList ++ "package ".toList ++ package.toList ++ [';', '\n'] ++
          ['\n'] ++ q.out)) ∧
    (root.empty = true → root.create_if_empty_ = false →
      WriteJavaFile root package final [] =
        some (sWarningHeader.toList ++ "package ".toList ++ package.toList ++ [';', '\n'] ++
          ['\n'])) ∧
    (∃ pre : String, sWarningHeader = pre ++ "\n\n") := by
  have hstate : (((((Printer.over []).Print sWarningHeader).Print "package ").Print
      package).Println ";").PrintlnEmpty =
      (Printer.over []).prepend (sWarningHeader.toList ++ "package ".toList ++
        package.toList ++ [';', '\n'] ++ ['\n']) := by
    have hl : ∀ s : String, (Printer.over []).Print s =
        { out := ((Printer.over []).Print s).out, indent_level := 0,
          needs_indent := ((Printer.over []).Print s).needs_indent } := by
      intro s
      have := Print_indent_level (Printer.over []) s
      cases hp : (Printer.over []).Print s
      rw [hp] at this
      simp only [Printer.over] at this
      simp [this]
    rw [Println_eq, ← Print_append, ← Print_append, ← Print_append]
    unfold Printer.PrintlnEmpty
    rw [Print_newline, hl]
    rw [Print_depth_zero _ rfl]
    simp [Printer.prepend, Printer.over, String.toList, String.data_append]
  constructor
  · obtain ⟨q, hq, -⟩ := ClassDefinition_Print_balanced root final (Printer.over [])
    refine ⟨q, hq, ?_⟩
    unfold WriteJavaFile
    simp only
    rw [hstate, ClassDefinition_Print_prepend, hq]
    rfl
  constructor
  · intro hempty hcreate
    unfold WriteJavaFile
    simp only
    rw [hstate, Print_of_elided root final _ hempty hcreate]
    simp [Printer.prepend, Printer.over]
  · exact ⟨"/* AUTO-GENERATED FILE. DO NOT MODIFY.\n" ++
      " *\n" ++
      " * This class was automatically generated by the\n" ++
      " * aapt tool from the resource data it found. It\n" ++
      " * should not be modified by hand.\n" ++
      " */", by rfl⟩

/-- Witness for C7: the method `getString()` with the statement `return "x";`,
printed at depth zero. -/
theorem MethodDefinition_Print_text_witness :
    getStringMethod.Print false (Printer.over []) =
      some { out := ("public String getString() \x7b\n" ++
                     " return \"x\";\n" ++
                     "\x7d").toList,
             indent_level := 0, needs_indent := false } := by
  rw [(MethodDefinition_Print_text getStringMethod false (Printer.over [])).1]
  rfl

/-- Witness for C6: the file written for the root class `R` of the scenario, and
the file written for a root that is elided. -/
theorem WriteJavaFile_text_witness :
    WriteJavaFile rootR "com.example" false [] =
      some (sWarningHeader ++ "package com.example;\n" ++ "\n" ++
            "public final class R \x7b\n" ++
            " public static final class string \x7b\n" ++
            "  public String getString() \x7b\n" ++
            "   return \"x\";\n" ++
            "  \x7d\n" ++
            " \x7d\n" ++
            "\x7d").toList ∧
    WriteJavaFile (ClassDefinition.new "R" ClassQualifier.kNone false) "com.example" true [] =
      some (sWarningHeader ++ "package com.example;\n" ++ "\n").toList := by
  constructor
  · obtain ⟨q, hq, hw⟩ := (WriteJavaFile_text rootR "com.example" false).1
    have hq2 : rootR.Print false (Printer.over []) =
        some { out := ("public final class R \x7b\n" ++
                       " public static final class string \x7b\n" ++
                       "  public String getString() \x7b\n" ++
                       "   return \"x\";\n" ++
                       "  \x7d\n" ++
                       " \x7d\n" ++
                       "\x7d").toList,
               indent_level := 0, needs_indent := false } := by rfl
    rw [hq2] at hq
    cases hq
    rw [hw]
    rfl
  · rw [(WriteJavaFile_text (ClassDefinition.new "R" ClassQualifier.kNone false)
      "com.example" true).2.1 rfl rfl]
    rfl

/-! ## A class with no members, the `final` flag, tombstones in `empty` -/

theorem renderMembers_final (members : List ClassMember)
    (hmembers : ∀ m ∈ members, ∀ p : Printer, m.Print true p = m.Print false p)
    (p : Printer) : renderMembers members true p = renderMembers members false p := by
  induction members generalizing p with
  | nil => rfl
  | cons member rest ih =>
    simp only [renderMembers, hmembers member (by simp) p]
    cases member.Print false p with
    | none => rfl
    | some q => exact ih (fun m hm => hmembers m (by simp [hm])) _

theorem ClassMember_Print_final (member : ClassMember) :
    ∀ p : Printer, member.Print true p = member.Print false p := by
  induction member using ClassMember_induct with
  | hmethod m =>
    intro p
    simp only [ClassMember.Print]
    rfl
  | hclass c ih =>
    intro p
    simp only [ClassMember.Print, ClassDefinition_Print_eq, printLoop_eq_renderMembers]
    rw [renderMembers_final _ (fun m hm => ih m (by simpa using hm))]

theorem ClassDefinition_Print_final (c : ClassDefinition) (p : Printer) :
    c.Print true p = c.Print false p := by
  have h := ClassMember_Print_final (ClassMember.classDef c) p
  simp only [ClassMember.Print] at h
  exact h

theorem emptyLoop_filter_isSome (slots : List (Option ClassMember)) :
    emptyLoop (slots.filter Option.isSome) = emptyLoop slots := by
  induction slots with
  | nil => rfl
  | cons slot rest ih =>
    cases slot with
    | none => simpa [emptyLoop] using ih
    | some member => simp [emptyLoop, ih]

/-- C11: a top-level class with `create_if_empty_` set, no live member and an
empty comment block, printed on a fresh printer at depth zero, renders exactly
`public final class <Name> {`, a newline and the closing brace. -/
theorem Print_empty_create_if_empty (c : ClassDefinition) (final : Bool) (fresh : Bool)
    (hqual : c.qualifier_ = ClassQualifier.kNone) (hcreate : c.create_if_empty_ = true)
    (hmembers : c.liveMembers = []) (hcomment : c.processor_.text = "") :
    c.Print final (Printer.mk [] 0 fresh) =
      some { out := ("public final class " ++ c.name_ ++ " \x7b\n\x7d").toList,
             indent_level := 0, needs_indent := false } := by
  have hdecl : c.declaration = ("public final class " ++ c.name_ ++ " \x7b") ++ "\n" := by
    unfold ClassDefinition.declaration
    rw [hqual]
    simp only [reduceCtorEq, if_false]
    rw [String.append_assoc _ " \x7b" "\n"]
    rfl
  have hneeds : ((Printer.mk [] 0 fresh).Print c.declaration).needs_indent = true := by
    rw [hdecl]; exact Print_needs_indent_of_newline _ _
  have hout : ((Printer.mk [] 0 fresh).Print c.declaration).out =
      ("public final class " ++ c.name_ ++ " \x7b\n").toList := by
    rw [Print_depth_zero _ rfl, hdecl]
    simp [String.toList, String.data_append]
  have hlevel : ((Printer.mk [] 0 fresh).Print c.declaration).indent_level = 0 :=
    Print_indent_level _ _
  have hnoc : (Printer.mk [] 0 fresh).Print c.processor_.text = Printer.mk [] 0 fresh := by
    rw [hcomment]; rfl
  have hlive : c.ordered_members_.filterMap id = [] := hmembers
  rw [ClassDefinition_Print_eq, hcreate, hnoc, printLoop_eq_renderMembers, hlive]
  simp only [Bool.not_true, Bool.and_false, Bool.false_eq_true, if_false, renderMembers,
    Printer.Undent, Printer.Indent, Nat.add_one_ne_zero, Nat.add_sub_cancel]
  rw [Print_brace _ hneeds]
  simp only [hout, Printer.indentation, hlevel]
  simp [String.toList, String.data_append]

/-- Witness for C11: a member-less top-level class `Name`. -/
theorem Print_empty_create_if_empty_witness :
    (ClassDefinition.new "Name" ClassQualifier.kNone true).Print false (Printer.mk [] 0 true) =
      some { out := "public final class Name \x7b\n\x7d".toList,
             indent_level := 0, needs_indent := false } :=
  Print_empty_create_if_empty (ClassDefinition.new "Name" ClassQualifier.kNone true) false true
    rfl rfl rfl rfl

/-- C13: the `final` flag has no effect: a member, a method, a class and
`WriteJavaFile` give the same result, output and final printer state alike, for
`final = true` and `final = false`. -/
theorem final_flag_unused (member : ClassMember) (m : MethodDefinition) (c : ClassDefinition)
    (package : String) (p : Printer) (out : List Char) :
    member.Print true p = member.Print false p ∧
    m.Print true p = m.Print false p ∧
    c.Print true p = c.Print false p ∧
    WriteJavaFile c package true out = WriteJavaFile c package false out := by
  refine ⟨ClassMember_Print_final member p, rfl, ClassDefinition_Print_final c p, ?_⟩
  unfold WriteJavaFile
  simp only [ClassDefinition_Print_final]

/-- C16: `empty()` gives the same answer on the slots with every tombstone
removed; a class whose slots are all tombstones, or that has no slot, is empty. -/
theorem empty_skips_tombstones (c : ClassDefinition) :
    c.empty = ClassDefinition.empty (c.withSlots (c.ordered_members_.filter Option.isSome)) ∧
    ((∀ slot ∈ c.ordered_members_, slot = none) → c.empty = true) ∧
    (c.ordered_members_ = [] → c.empty = true) := by
  refine ⟨?_, ?_, ?_⟩
  · rw [ClassDefinition_empty_eq, ClassDefinition_empty_eq]
    exact (emptyLoop_filter_isSome _).symm
  · intro h
    rw [ClassDefinition_empty_eq, emptyLoop_eq_true_iff]
    intro m hm
    cases h _ hm
  · intro h
    rw [ClassDefinition_empty_eq, h]
    rfl

/-- Witness for C16: a class whose two slots are tombstones. -/
theorem empty_skips_tombstones_witness : tombstonesOnly.empty = true :=
  (empty_skips_tombstones tombstonesOnly).2.1 (by
    intro slot h
    simp only [tombstonesOnly, List.mem_cons, List.mem_singleton, List.mem_nil_iff,
      or_false, or_self] at h
    exact h)

/-! ## The slot list and index refine an ordered map -/

theorem emptyLoop_map_some_live (slots : List (Option ClassMember)) :
    emptyLoop ((slots.filterMap id).map some) = emptyLoop slots := by
  induction slots with
  | nil => rfl
  | cons slot rest ih =>
    cases slot with
    | none => simpa [emptyLoop] using ih
    | some member => simp [emptyLoop, ih]

theorem addAll_fields (c : ClassDefinition) (members : List ClassMember) :
    (c.addAll members).name_ = c.name_ ∧
    (c.addAll members).qualifier_ = c.qualifier_ ∧
    (c.addAll members).create_if_empty_ = c.create_if_empty_ ∧
    (c.addAll members).processor_ = c.processor_ := by
  induction members generalizing c with
  | nil => exact ⟨rfl, rfl, rfl, rfl⟩
  | cons member rest ih =>
    have h1 := ih (c.AddMember member).2
    have h2 := AddMember_fields c member
    exact ⟨h1.1.trans h2.1, h1.2.1.trans h2.2.1, h1.2.2.1.trans h2.2.2.1,
      h1.2.2.2.trans h2.2.2.2⟩

theorem AddMember_result_ref (c : ClassDefinition) (member : ClassMember)
    (hc : IndexConsistent c) :
    (c.AddMember member).1 = (refAddMember c.liveMembers member).1 := by
  have hr := AddMember_result c member hc
  rw [exists_liveAt_iff] at hr
  unfold refAddMember
  simp only
  by_cases hany : (c.liveMembers.any (fun x => x.GetName == member.GetName)) = true
  · rw [if_pos hany]
    apply hr.1.2
    obtain ⟨x, hx, hxn⟩ := List.any_eq_true.1 hany
    simp only [ClassDefinition.liveMembers, List.mem_filterMap, id] at hx
    obtain ⟨o, ho, rfl⟩ := hx
    exact ⟨x, ho, by simpa using hxn⟩
  · rw [if_neg hany]
    apply hr.2.2
    rintro ⟨x, hx, hxn⟩
    apply hany
    apply List.any_eq_true.2
    exact ⟨x, by simp only [ClassDefinition.liveMembers, List.mem_filterMap, id]; exact ⟨_, hx, rfl⟩,
      by simpa using hxn⟩

theorem addAll_liveMembers_ref (c : ClassDefinition) (h : Reachable c)
    (members : List ClassMember) :
    (c.addAll members).liveMembers = refAddAll c.liveMembers members := by
  induction members generalizing c with
  | nil => rfl
  | cons member rest ih =>
    have hstep := ih (c.AddMember member).2 (Reachable.step c member h)
    rw [liveMembers_AddMember c member h.consistent] at hstep
    exact hstep

theorem addAllResults_ref (c : ClassDefinition) (h : Reachable c)
    (members : List ClassMember) :
    c.addAllResults members = refAddAllResults c.liveMembers members := by
  induction members generalizing c with
  | nil => rfl
  | cons member rest ih =>
    simp only [ClassDefinition.addAllResults, refAddAllResults]
    rw [AddMember_result_ref c member h.consistent,
      ih (c.AddMember member).2 (Reachable.step c member h),
      liveMembers_AddMember c member h.consistent]
    rfl

/-- C19: for every sequence of `AddMember` calls on a class that starts with no
members, the live members in slot order are the entries of the reference
ordered map (remove any entry of the same name, then append) after the same
insertions, each call returns `kOverridden` exactly when the reference step
removed an entry, and `empty()` and `Print` agree with the class whose slots
are the reference entries. -/
theorem AddMember_refines_ordered_map (c : ClassDefinition) (hslots : c.ordered_members_ = [])
    (hindex : c.indexed_members_ = []) (members : List ClassMember) (final : Bool)
    (p : Printer) :
    (c.addAll members).liveMembers = refAddAll [] members ∧
    c.addAllResults members = refAddAllResults [] members ∧
    (∀ (entries : List ClassMember) (member : ClassMember),
      (refAddMember entries member).1 = Result.kOverridden ↔
        (refAddMember entries member).2.length < entries.length + 1) ∧
    (c.addAll members).empty =
      ClassDefinition.empty (c.withSlots ((refAddAll [] members).map some)) ∧
    (c.addAll members).Print final p =
      (c.withSlots ((refAddAll [] members).map some)).Print final p := by
  have hreach : Reachable c := Reachable.init c hslots hindex
  have hlive0 : c.liveMembers = [] := by simp [ClassDefinition.liveMembers, hslots]
  have hlive := addAll_liveMembers_ref c hreach members
  rw [hlive0] at hlive
  have hres := addAllResults_ref c hreach members
  rw [hlive0] at hres
  refine ⟨hlive, hres, ?_, ?_, ?_⟩
  · intro entries member
    unfold refAddMember
    simp only [List.length_append, List.length_singleton, Nat.add_lt_add_iff_right]
    by_cases hany : (entries.any (fun x => x.GetName == member.GetName)) = true
    · simp only [hany, if_true, true_iff]
      obtain ⟨x, hx, hxn⟩ := List.any_eq_true.1 hany
      apply List.length_filter_lt_length_iff_exists.2
      exact ⟨x, hx, by simpa using hxn⟩
    · simp only [hany, Bool.false_eq_true, if_false, reduceCtorEq, false_iff, not_lt]
      apply le_of_eq
      symm
      congr 1
      rw [List.filter_eq_self]
      intro x hx
      simp only [bne_iff_ne, ne_eq]
      intro hxn
      exact hany (List.any_eq_true.2 ⟨x, hx, by simpa using hxn⟩)
  · rw [ClassDefinition_empty_eq, ClassDefinition_empty_eq, ← hlive]
    exact (emptyLoop_map_some_live _).symm
  · rw [Print_withSlots_live, hlive]
    have hf := addAll_fields c members
    apply Print_congr
    · exact hf.2.2.2
    · exact hf.1
    · exact hf.2.1
    · exact hf.2.2.1
    · rfl

/-- Witness for C19: `foo()`, `bar()`, then the nested class `foo`. -/
theorem AddMember_refines_ordered_map_witness :
    (ClassDefinition.new "R" ClassQualifier.kNone false).addAllResults
        [ClassMember.method fooMethod,
         ClassMember.method { name := "bar", signature := "void bar()", statements_ := [] },
         ClassMember.classDef fooClass] =
      [Result.kAdded, Result.kAdded, Result.kOverridden] := by
  rw [(AddMember_refines_ordered_map (ClassDefinition.new "R" ClassQualifier.kNone false)
    rfl rfl _ false (Printer.over [])).2.1]
  decide

/-! ## The index stays consistent with the slots -/

theorem mem_iff_lookup (l : List (String × Nat)) (h : (l.map Prod.fst).Nodup)
    (k : String) (v : Nat) : (k, v) ∈ l ↔ l.lookup k = some v := by
  induction l with
  | nil => simp
  | cons e rest ih =>
    obtain ⟨a, b⟩ := e
    simp only [List.map_cons, List.nodup_cons] at h
    by_cases hk : k = a
    · subst hk
      simp only [List.mem_cons, Prod.mk.injEq, true_and, List.lookup_cons_self,
        Option.some.injEq]
      constructor
      · rintro (hv | hmem)
        · exact hv.symm
        · exact absurd (List.mem_map_of_mem Prod.fst hmem) h.1
      · intro hv
        exact Or.inl hv.symm
    · have hne : (k == a) = false := by simpa using hk
      simp only [List.mem_cons, Prod.mk.injEq, hk, false_and, false_or, List.lookup_cons, hne]
      exact ih h.2

theorem map_fst_indexErase (l : List (String × Nat)) (k : String)
    (h : (l.map Prod.fst).Nodup) :
    (indexErase l k).map Prod.fst = (l.map Prod.fst).filter (fun n => n != k) := by
  induction l with
  | nil => rfl
  | cons e rest ih =>
    obtain ⟨a, b⟩ := e
    simp only [List.map_cons, List.nodup_cons] at h
    by_cases hk : k = a
    · subst hk
      simp only [indexErase, beq_self_eq_true, List.eraseP_cons_of_pos, List.map_cons,
        List.filter_cons, bne_self_eq_false, Bool.false_eq_true, if_false]
      symm
      rw [List.filter_eq_self]
      intro n hn
      simp only [bne_iff_ne, ne_eq]
      rintro rfl
      exact h.1 hn
    · have hne : (k == a) = false := by simpa using hk
      have hne2 : (a != k) = true := by simpa using fun h => hk h.symm
      simp only [indexErase, hne, Bool.false_eq_true, not_false_eq_true,
        List.eraseP_cons_of_neg, List.map_cons, List.filter_cons, hne2, if_true]
      congr 1
      exact ih h.2

theorem keys_perm_live_names (c : ClassDefinition) (h : Reachable c) :
    (c.indexed_members_.map Prod.fst).Perm (c.liveMembers.map ClassMember.GetName) := by
  induction h with
  | init c hslots hindex => simp [ClassDefinition.liveMembers, hslots, hindex]
  | step c member hreach ih =>
    rw [AddMember_index c member hreach.consistent,
      liveMembers_AddMember c member hreach.consistent, List.map_append, List.map_append,
      map_fst_indexErase _ _ hreach.consistent.keys_nodup]
    apply List.Perm.append
    · have hmap : (c.liveMembers.filter (fun x => x.GetName != member.GetName)).map
          ClassMember.GetName =
          (c.liveMembers.map ClassMember.GetName).filter (fun n => n != member.GetName) := by
        rw [List.filter_map]
        rfl
      rw [hmap]
      exact ih.filter _
    · exact List.Perm.refl _

theorem last_slot_live (c : ClassDefinition) (h : Reachable c)
    (hne : c.ordered_members_ ≠ []) :
    ∃ m : ClassMember, c.ordered_members_.getLast? = some (some m) := by
  cases h with
  | init c hslots hindex => exact absurd hslots hne
  | step d member hreach =>
    refine ⟨member, ?_⟩
    rw [List.getLast?_eq_getElem?, AddMember_length]
    simpa using AddMember_last d member

/-- C20: after any sequence of `AddMember` calls on a class that started with
no members, the index maps a name to `i` exactly when slot `i` is live and
holds a member of that name; so an index value is in bounds and never points at
a tombstone, there are as many index entries as live slots, and once a member
has been added the last slot is live. -/
theorem index_consistent_with_slots (c : ClassDefinition) (h : Reachable c) :
    (∀ n i, indexFind c.indexed_members_ n = some i ↔ c.liveAt i n) ∧
    (∀ n i, (n, i) ∈ c.indexed_members_ ↔ c.liveAt i n) ∧
    (∀ n i, indexFind c.indexed_members_ n = some i →
      i < c.ordered_members_.length ∧ c.ordered_members_[i]? ≠ some none) ∧
    c.indexed_members_.length = c.liveMembers.length ∧
    (c.ordered_members_ ≠ [] → ∃ m : ClassMember, c.ordered_members_.getLast? = some (some m)) := by
  have hc := h.consistent
  refine ⟨hc.find_iff, ?_, ?_, ?_, last_slot_live c h⟩
  · intro n i
    rw [mem_iff_lookup _ hc.keys_nodup]
    exact hc.find_iff n i
  · intro n i hfind
    have hlive := (hc.find_iff n i).1 hfind
    refine ⟨liveAt_lt c i n hlive, ?_⟩
    obtain ⟨m, hm, -⟩ := hlive
    rw [hm]
    intro hcontra
    cases hcontra
  · have hperm := (keys_perm_live_names c h).length_eq
    simpa using hperm

/-- Witness for C20: the class built by adding `bar()`, `foo()` and the nested
class `foo` has two index entries and two live slots. -/
theorem index_consistent_with_slots_witness :
    ((overrideBase.AddMember (ClassMember.method fooMethod)).2.AddMember
        (ClassMember.classDef fooClass)).2.indexed_members_.length =
      ((overrideBase.AddMember (ClassMember.method fooMethod)).2.AddMember
        (ClassMember.classDef fooClass)).2.liveMembers.length :=
  (index_consistent_with_slots _
    (Reachable.step _ _ (Reachable.step _ _ (Reachable.step _ _
      (Reachable.init _ rfl rfl))))).2.2.2.1

/-! ## An elided member inside a printed class -/

theorem renderMembers_append (a b : List ClassMember) (final : Bool) (p : Printer) :
    renderMembers (a ++ b) final p =
      (renderMembers a final p).bind (fun q => renderMembers b final q) := by
  induction a generalizing p with
  | nil => rfl
  | cons member rest ih =>
    simp only [List.cons_append, renderMembers]
    cases member.Print final p with
    | none => rfl
    | some q => exact ih _

theorem renderMembers_total (members : List ClassMember) (final : Bool) (p : Printer) :
    ∃ q, renderMembers members final p = some q ∧ q.indent_level = p.indent_level :=
  renderMembers_balanced members final (fun m _ q => ClassMember_Print_balanced m final q) p

theorem renderMembers_prepend_all (members : List ClassMember) (final : Bool) (p : Printer)
    (pre : List Char) :
    renderMembers members final (p.prepend pre) =
      (renderMembers members final p).map (fun q => q.prepend pre) :=
  renderMembers_prepend members final (fun m _ => ClassMember_Print_prepend m final) p pre

theorem emptyLoop_append (a b : List (Option ClassMember)) :
    emptyLoop (a ++ b) = (emptyLoop a && emptyLoop b) := by
  induction a with
  | nil => simp [emptyLoop]
  | cons slot rest ih =>
    cases slot with
    | none => simpa [emptyLoop] using ih
    | some member =>
      cases hm : member.empty <;> simp [emptyLoop, hm, ih]

/-- The printer after the comment block and the declaration line of a class, one
level deeper: it is at the start of a line. -/
theorem declared_needs_indent (c : ClassDefinition) (p : Printer) :
    (((p.Print c.processor_.text).Print c.declaration).Indent).needs_indent = true := by
  have hd : c.declaration =
      ("public " ++ (if c.qualifier_ = ClassQualifier.kStatic then "static " else "") ++
        "final class " ++ c.name_ ++ " \x7b") ++ "\n" := by
    unfold ClassDefinition.declaration
    rw [String.append_assoc _ " \x7b" "\n"]
    rfl
  rw [hd]
  exact Print_needs_indent_of_newline _ _

theorem declared_indent_level (c : ClassDefinition) (p : Printer) :
    (((p.Print c.processor_.text).Print c.declaration).Indent).indent_level =
      p.indent_level + 1 := by
  simp [Printer.Indent, Print_indent_level]

/-- What a class that is not elided prints, in terms of the rendering of its
live members. -/
theorem Print_shown (c : ClassDefinition) (final : Bool) (p : Printer)
    (hshown : c.empty = false ∨ c.create_if_empty_ = true) (body : Printer)
    (hbody : renderMembers c.liveMembers final
      ((p.Print c.processor_.text).Print c.declaration).Indent = some body) :
    c.Print final p =
      some { out := body.out ++ p.indentation ++ ['\x7d'],
             indent_level := p.indent_level, needs_indent := false } := by
  have hneeds := renderMembers_needs_indent _ _ _ _ hbody (declared_needs_indent c p)
  obtain ⟨body2, hbody2, hlevel⟩ := renderMembers_total c.liveMembers final
    ((p.Print c.processor_.text).Print c.declaration).Indent
  rw [hbody] at hbody2
  cases hbody2
  rw [declared_indent_level] at hlevel
  have hcond : (c.empty && !c.create_if_empty_) = false := by
    rcases hshown with h | h <;> simp [h]
  rw [ClassDefinition_Print_eq, hcond, printLoop_eq_renderMembers]
  simp only [Bool.false_eq_true, if_false]
  change (match renderMembers c.liveMembers final
      ((p.Print c.processor_.text).Print c.declaration).Indent with
    | none => none
    | some q => match q.Undent with
      | none => none
      | some r => some (r.Print "\x7d")) = _
  rw [hbody]
  simp only [Printer.Undent, hlevel, Nat.add_one_ne_zero, if_false, Nat.add_sub_cancel]
  rw [Print_brace (Printer.mk body.out p.indent_level body.needs_indent) hneeds]
  rfl

/-- C14 as stated fails: the root `P`, printed because it is `create_if_empty_`,
gives a different text with the empty nested class `C` as its member than
without it. -/
theorem elided_member_counterexample :
    (emptyNested.empty = true ∧ emptyNested.create_if_empty_ = false ∧
      shownRoot.create_if_empty_ = true ∧
      shownRootWithEmptyNested.liveMembers = [ClassMember.classDef emptyNested]) ∧
    (shownRootWithEmptyNested.Print false (Printer.over [])).map Printer.out =
      some "public final class P \x7b\n\n\x7d".toList ∧
    (shownRoot.Print false (Printer.over [])).map Printer.out =
      some "public final class P \x7b\n\x7d".toList ∧
    (shownRootWithEmptyNested.Print false (Printer.over [])).map Printer.out ≠
      (shownRoot.Print false (Printer.over [])).map Printer.out := by
  refine ⟨⟨by decide, rfl, rfl, rfl⟩, by rfl, by rfl, ?_⟩
  have h1 : (shownRootWithEmptyNested.Print false (Printer.over [])).map Printer.out =
      some "public final class P \x7b\n\n\x7d".toList := by rfl
  have h2 : (shownRoot.Print false (Printer.over [])).map Printer.out =
      some "public final class P \x7b\n\x7d".toList := by rfl
  rw [h1, h2]
  decide

/-- C14, amended: a nested class `C` that is empty and not `create_if_empty_`
writes nothing itself, but the member loop of the enclosing class still writes
the newline that follows every live member. So a printed class `P` with `C` as
a live member emits the text it emits without `C`, with one extra newline at
the place of `C`. -/
theorem elided_member_leaves_newline (P C : ClassDefinition) (final : Bool) (p : Printer)
    (pre post : List (Option ClassMember))
    (hslots : P.ordered_members_ = pre ++ some (ClassMember.classDef C) :: post)
    (hempty : C.empty = true) (hcreate : C.create_if_empty_ = false)
    (hshown : P.empty = false ∨ P.create_if_empty_ = true) :
    (∀ q : Printer, C.Print final q = some q) ∧
    ∃ before after : List Char,
      (∃ q, printLoop pre final
          ((p.Print P.processor_.text).Print P.declaration).Indent = some q ∧
        q.out = before) ∧
      P.Print final p =
        some { out := before ++ ['\n'] ++ after, indent_level := p.indent_level,
               needs_indent := false } ∧
      (P.withSlots (pre ++ post)).Print final p =
        some { out := before ++ after, indent_level := p.indent_level,
               needs_indent := false } := by
  refine ⟨fun q => Print_of_elided C final q hempty hcreate, ?_⟩
  generalize hs : ((p.Print P.processor_.text).Print P.declaration).Indent = s
  have hsn : s.needs_indent = true := by rw [← hs]; exact declared_needs_indent P p
  obtain ⟨q, hq, hql⟩ := renderMembers_total (pre.filterMap id) final s
  have hqn := renderMembers_needs_indent _ _ _ _ hq hsn
  obtain ⟨r0, hr0, -⟩ := renderMembers_total (post.filterMap id) final
    (Printer.mk [] q.indent_level true)
  have hqsplit := prepend_lineStart q hqn
  have hqnl : q.Print "\n" = (Printer.mk [] q.indent_level true).prepend (q.out ++ ['\n']) := by
    rw [Print_newline]
    simp [Printer.prepend]
  have hlive : P.liveMembers =
      pre.filterMap id ++ ClassMember.classDef C :: post.filterMap id := by
    simp [ClassDefinition.liveMembers, hslots]
  have hlive2 : (P.withSlots (pre ++ post)).liveMembers =
      pre.filterMap id ++ post.filterMap id := by
    simp [ClassDefinition.liveMembers, ClassDefinition.withSlots]
  have hCe : (ClassMember.classDef C).empty = true := by
    rw [ClassMember.empty]; exact hempty
  have hempty2 : ClassDefinition.empty (P.withSlots (pre ++ post)) = P.empty := by
    rw [ClassDefinition_empty_eq, ClassDefinition_empty_eq, hslots]
    simp only [ClassDefinition.withSlots]
    rw [emptyLoop_append, emptyLoop_append]
    simp [emptyLoop, hCe]
  have hbody1 : renderMembers P.liveMembers final s =
      some (r0.prepend (q.out ++ ['\n'])) := by
    rw [hlive, renderMembers_append, hq]
    simp only [Option.some_bind, renderMembers, ClassMember.Print]
    rw [Print_of_elided C final q hempty hcreate]
    simp only
    rw [hqnl, renderMembers_prepend_all, hr0]
    rfl
  have hbody2 : renderMembers (P.withSlots (pre ++ post)).liveMembers final s =
      some (r0.prepend q.out) := by
    have hpost := renderMembers_prepend_all (post.filterMap id) final
      (Printer.mk [] q.indent_level true) q.out
    rw [← hqsplit, hr0] at hpost
    rw [hlive2, renderMembers_append, hq]
    simp only [Option.some_bind]
    rw [hpost]
    rfl
  refine ⟨q.out, r0.out ++ p.indentation ++ ['\x7d'], ⟨q, ?_, rfl⟩, ?_, ?_⟩
  · rw [printLoop_eq_renderMembers]; exact hq
  · rw [Print_shown P final p hshown _ (by rw [hs]; exact hbody1)]
    simp [Printer.prepend, List.append_assoc]
  · have hshown2 : ClassDefinition.empty (P.withSlots (pre ++ post)) = false ∨
        (P.withSlots (pre ++ post)).create_if_empty_ = true := by
      rw [hempty2]; exact hshown
    rw [Print_shown (P.withSlots (pre ++ post)) final p hshown2 _ (by
      show renderMembers _ final ((p.Print P.processor_.text).Print P.declaration).Indent = _
      rw [hs]; exact hbody2)]
    simp [Printer.prepend, List.append_assoc]

/-- Witness for C14: the root `P` with the empty nested class `C`. -/
theorem elided_member_leaves_newline_witness :
    ∃ before after : List Char,
      shownRootWithEmptyNested.Print false (Printer.over []) =
        some { out := before ++ ['\n'] ++ after, indent_level := 0, needs_indent := false } ∧
      (shownRootWithEmptyNested.withSlots []).Print false (Printer.over []) =
        some { out := before ++ after, indent_level := 0, needs_indent := false } := by
  obtain ⟨-, before, after, -, h1, h2⟩ :=
    elided_member_leaves_newline shownRootWithEmptyNested emptyNested false (Printer.over [])
      [] [] rfl (by decide) rfl (Or.inr rfl)
  exact ⟨before, after, h1, h2⟩

/-! ## The rendering of a member is part of the output of the class that holds it -/

theorem prepend_self (p : Printer) :
    p = (Printer.mk [] p.indent_level p.needs_indent).prepend p.out := by
  cases p
  simp [Printer.prepend]

theorem Print_out_extends (p : Printer) (str : String) :
    ∃ t : List Char, (p.Print str).out = p.out ++ t := by
  refine ⟨((Printer.mk [] p.indent_level p.needs_indent).Print str).out, ?_⟩
  conv_lhs => rw [prepend_self p, Print_prepend]
  rfl

theorem renderMembers_out_extends (members : List ClassMember) (final : Bool) (p body : Printer)
    (h : renderMembers members final p = some body) :
    ∃ t : List Char, body.out = p.out ++ t := by
  have hp := renderMembers_prepend_all members final
    (Printer.mk [] p.indent_level p.needs_indent) p.out
  rw [← prepend_self p, h] at hp
  cases h0 : renderMembers members final (Printer.mk [] p.indent_level p.needs_indent) with
  | none => rw [h0] at hp; cases hp
  | some b0 =>
    rw [h0] at hp
    simp only [Option.map_some', Option.some.injEq] at hp
    exact ⟨b0.out, by rw [hp]; rfl⟩

theorem renderMembers_infix (members : List ClassMember) (x : ClassMember) (hx : x ∈ members)
    (final : Bool) (s : Printer) (hs : s.needs_indent = true) :
    ∃ (body qx : Printer) (before after : List Char),
      renderMembers members final s = some body ∧
      x.Print final (Printer.mk [] s.indent_level true) = some qx ∧
      body.out = s.out ++ before ++ qx.out ++ after := by
  induction members generalizing s with
  | nil => simp at hx
  | cons y rest ih =>
    obtain ⟨ry, hry, hryl⟩ := ClassMember_Print_balanced y final (Printer.mk [] s.indent_level true)
    have hy : y.Print final s = some (ry.prepend s.out) := by
      conv_lhs => rw [prepend_lineStart s hs, ClassMember_Print_prepend, hry]
      rfl
    have hnext : ((ry.prepend s.out).Print "\n").needs_indent = true := by
      rw [Print_newline]
    have hnextl : ((ry.prepend s.out).Print "\n").indent_level = s.indent_level := by
      rw [Print_indent_level]
      exact hryl
    have hnexto : ((ry.prepend s.out).Print "\n").out = s.out ++ ry.out ++ ['\n'] := by
      rw [Print_newline]
      rfl
    rcases List.mem_cons.1 hx with rfl | hrest
    · obtain ⟨body, hbody, -⟩ := renderMembers_total rest final ((ry.prepend s.out).Print "\n")
      obtain ⟨t, ht⟩ := renderMembers_out_extends rest final _ body hbody
      refine ⟨body, ry, [], '\n' :: t, ?_, hry, ?_⟩
      · simp only [renderMembers, hy]
        exact hbody
      · rw [ht, hnexto]
        simp [List.append_assoc]
    · obtain ⟨body, qx, before, after, hbody, hqx, hout⟩ := ih hrest _ hnext
      rw [hnextl] at hqx
      refine ⟨body, qx, ry.out ++ '\n' :: before, after, ?_, hqx, ?_⟩
      · simp only [renderMembers, hy]
        exact hbody
      · rw [hout, hnexto]
        simp [List.append_assoc]

theorem Print_contains_member (c : ClassDefinition) (x : ClassMember)
    (hshown : c.empty = false ∨ c.create_if_empty_ = true)
    (hx : some x ∈ c.ordered_members_) (final : Bool) (p : Printer) :
    ∃ (q qx : Printer) (before after : List Char),
      c.Print final p = some q ∧
      x.Print final (Printer.mk [] (p.indent_level + 1) true) = some qx ∧
      q.out = p.out ++ before ++ qx.out ++ after := by
  have hlive : x ∈ c.liveMembers := by
    simp only [ClassDefinition.liveMembers, List.mem_filterMap, id]
    exact ⟨_, hx, rfl⟩
  obtain ⟨body, qx, before, after, hbody, hqx, hout⟩ := renderMembers_infix c.liveMembers x
    hlive final _ (declared_needs_indent c p)
  rw [declared_indent_level] at hqx
  obtain ⟨t1, ht1⟩ := Print_out_extends p c.processor_.text
  obtain ⟨t2, ht2⟩ := Print_out_extends (p.Print c.processor_.text) c.declaration
  have hsout : (((p.Print c.processor_.text).Print c.declaration).Indent).out =
      p.out ++ (t1 ++ t2) := by
    show ((p.Print c.processor_.text).Print c.declaration).out = _
    rw [ht2, ht1, List.append_assoc]
  refine ⟨_, qx, t1 ++ t2 ++ before, after ++ p.indentation ++ ['\x7d'],
    Print_shown c final p hshown body hbody, hqx, ?_⟩
  simp only [hout, hsout, List.append_assoc]

theorem PrintedIn_contains (c : ClassDefinition) (x : ClassMember) (n : Nat)
    (h : PrintedIn c x n) (final : Bool) :
    ∀ p : Printer, ∃ (q qx : Printer) (before after : List Char),
      c.Print final p = some q ∧
      x.Print final (Printer.mk [] (p.indent_level + n) true) = some qx ∧
      q.out = p.out ++ before ++ qx.out ++ after := by
  induction h with
  | direct c x hshown hx =>
    intro p
    exact Print_contains_member c x hshown hx final p
  | nested c k x n hshown hk _ ih =>
    intro p
    obtain ⟨q, qk, before, after, hq, hqk, hout⟩ :=
      Print_contains_member c (ClassMember.classDef k) hshown hk final p
    obtain ⟨q2, qx, before2, after2, hq2, hqx, hout2⟩ :=
      ih (Printer.mk [] (p.indent_level + 1) true)
    simp only [ClassMember.Print] at hqk
    rw [hqk] at hq2
    cases hq2
    refine ⟨q, qx, before ++ before2, after2 ++ after, hq, ?_, ?_⟩
    · have hl : p.indent_level + (n + 1) = p.indent_level + 1 + n := by omega
      rw [hl]
      exact hqx
    · rw [hout, hout2]
      simp [List.append_assoc]

theorem LiveIn_not_empty (c : ClassDefinition) (x : ClassMember) (n : Nat)
    (h : LiveIn c x n) (hx : x.empty = false) : c.empty = false := by
  induction h with
  | direct c x hmem =>
    cases hc : c.empty with
    | false => rfl
    | true =>
      rw [ClassDefinition_empty_eq, emptyLoop_eq_true_iff] at hc
      rw [hc x hmem] at hx
      cases hx
  | nested c k x n hmem _ ih =>
    have hk : (ClassMember.classDef k).empty = false := by
      rw [ClassMember.empty]
      exact ih hx
    cases hc : c.empty with
    | false => rfl
    | true =>
      rw [ClassDefinition_empty_eq, emptyLoop_eq_true_iff] at hc
      rw [hc _ hmem] at hk
      cases hk

theorem LiveIn_PrintedIn (c : ClassDefinition) (x : ClassMember) (n : Nat)
    (h : LiveIn c x n) (hx : x.empty = false) : PrintedIn c x n := by
  induction h with
  | direct c x hmem =>
    exact PrintedIn.direct c x (Or.inl (LiveIn_not_empty c x 1 (LiveIn.direct c x hmem) hx)) hmem
  | nested c k x n hmem hk ih =>
    exact PrintedIn.nested c k x n
      (Or.inl (LiveIn_not_empty c x (n + 1) (LiveIn.nested c k x n hmem hk) hx)) hmem (ih hx)

theorem WriteJavaFile_eq (root : ClassDefinition) (package : String) (final : Bool) :
    WriteJavaFile root package final [] =
      (root.Print final (Printer.over [])).map (fun q => filePreamble package ++ q.out) := by
  have hstate : (((((Printer.over []).Print sWarningHeader).Print "package ").Print
      package).Println ";").PrintlnEmpty = (Printer.over []).prepend (filePreamble package) := by
    have hl : ∀ s : String, (Printer.over []).Print s =
        { out := ((Printer.over []).Print s).out, indent_level := 0,
          needs_indent := ((Printer.over []).Print s).needs_indent } := by
      intro s
      have := Print_indent_level (Printer.over []) s
      cases hp : (Printer.over []).Print s
      rw [hp] at this
      simp only [Printer.over] at this
      simp [this]
    rw [Println_eq, ← Print_append, ← Print_append, ← Print_append]
    unfold Printer.PrintlnEmpty
    rw [Print_newline, hl]
    rw [Print_depth_zero _ rfl]
    simp [Printer.prepend, Printer.over, filePreamble, String.toList, String.data_append]
  unfold WriteJavaFile
  simp only
  rw [hstate, ClassDefinition_Print_prepend]
  cases root.Print final (Printer.over []) with
  | none => rfl
  | some q => rfl

/-! ## Methods are never elided; what `create_if_empty_` forces -/

/-- C12: a method's `empty()` is false; so a class that reaches a method through
live slots, `n` levels down, is not empty, prints its declaration whatever its
`create_if_empty_`, and its output holds the text the method prints `n` levels
deeper. -/
theorem method_never_elided (c : ClassDefinition) (m : MethodDefinition) (n : Nat)
    (h : LiveIn c (ClassMember.method m) n) (final : Bool) (p : Printer) :
    (ClassMember.method m).empty = false ∧
    c.empty = false ∧
    (∃ body : Printer,
      renderMembers c.liveMembers final
        ((p.Print c.processor_.text).Print c.declaration).Indent = some body ∧
      c.Print final p =
        some { out := body.out ++ p.indentation ++ ['\x7d'],
               indent_level := p.indent_level, needs_indent := false }) ∧
    (∃ (q qm : Printer) (before after : List Char),
      c.Print final p = some q ∧
      m.Print final (Printer.mk [] (p.indent_level + n) true) = some qm ∧
      q.out = p.out ++ before ++ qm.out ++ after) := by
  have hm : (ClassMember.method m).empty = false := by rw [ClassMember.empty]
  have hc := LiveIn_not_empty c _ n h hm
  refine ⟨hm, hc, ?_, ?_⟩
  · obtain ⟨body, hbody, -⟩ := renderMembers_total c.liveMembers final
      ((p.Print c.processor_.text).Print c.declaration).Indent
    exact ⟨body, hbody, Print_shown c final p (Or.inl hc) body hbody⟩
  · obtain ⟨q, qm, before, after, hq, hqm, hout⟩ :=
      PrintedIn_contains c _ n (LiveIn_PrintedIn c _ n h hm) final p
    simp only [ClassMember.Print] at hqm
    exact ⟨q, qm, before, after, hq, hqm, hout⟩

/-- Witness for C12: the root `R` reaches `getString()` two levels down, through
the nested class `string`, and is not empty. -/
theorem method_never_elided_witness : rootR.empty = false :=
  (method_never_elided rootR getStringMethod 2
    (LiveIn.nested rootR stringClass _ 1 (List.Mem.head _)
      (LiveIn.direct stringClass _ (List.Mem.head _)))
    false (Printer.over [])).2.1

/-- C15 as stated fails: the member-less `create_if_empty_` class `foo` is a
live member of a root that is not `create_if_empty_`; the root is empty, so
`WriteJavaFile` writes the preamble only, without any brace. -/
theorem create_if_empty_counterexample :
    (fooClass.create_if_empty_ = true ∧
      LiveIn hiddenCreateIfEmpty (ClassMember.classDef fooClass) 1) ∧
    WriteJavaFile hiddenCreateIfEmpty "com.example" false [] =
      some (sWarningHeader ++ "package com.example;\n\n").toList ∧
    ¬ ("final class foo \x7b".toList <:+:
        (sWarningHeader ++ "package com.example;\n\n").toList) ∧
    '\x7d' ∉ (sWarningHeader ++ "package com.example;\n\n").toList := by
  refine ⟨⟨rfl, LiveIn.direct _ _ (List.Mem.head _)⟩, by rfl, ?_, by decide⟩
  intro hinfix
  have hmem : '\x7b' ∈ (sWarningHeader ++ "package com.example;\n\n").toList :=
    hinfix.subset (by decide)
  revert hmem
  decide

/-- C15, amended: `create_if_empty_` forces the emission of a class `D` where
`D` itself gets printed: when `D` is the root, or when every class on the way
from the root to `D` is not empty or is `create_if_empty_`. Then the output of
`WriteJavaFile` holds the text `D` prints at its depth: its comment block and
declaration line, its members, and the closing brace at that depth, also when
`D` has no members. -/
theorem create_if_empty_forces_emission (root D : ClassDefinition) (package : String)
    (final : Bool) (n : Nat) (hcreate : D.create_if_empty_ = true)
    (hpath : (root = D ∧ n = 0) ∨ PrintedIn root (ClassMember.classDef D) n) :
    ∃ (qd : Printer) (before after : List Char),
      D.Print final (Printer.mk [] n true) = some qd ∧
      WriteJavaFile root package final [] = some (before ++ qd.out ++ after) ∧
      (∃ members : List Char,
        qd.out = (((Printer.mk [] n true).Print D.processor_.text).Print D.declaration).out ++
          members ++ (List.replicate n Printer.indentUnit).flatten ++ ['\x7d']) ∧
      (D.processor_.text = "" → '\n' ∉ D.name_.toList →
        ∃ members : List Char,
          qd.out = (List.replicate n Printer.indentUnit).flatten ++ D.declaration.toList ++
            members ++ (List.replicate n Printer.indentUnit).flatten ++ ['\x7d']) := by
  obtain ⟨body, hbody, -⟩ := renderMembers_total D.liveMembers final
    (((Printer.mk [] n true).Print D.processor_.text).Print D.declaration).Indent
  have hqd := Print_shown D final (Printer.mk [] n true) (Or.inr hcreate) body hbody
  obtain ⟨t, ht⟩ := renderMembers_out_extends _ _ _ _ hbody
  have hfile : ∃ before after : List Char,
      WriteJavaFile root package final [] =
        some (before ++ (body.out ++ (Printer.mk [] n true).indentation ++ ['\x7d']) ++
          after) := by
    rcases hpath with ⟨rfl, rfl⟩ | hprinted
    · refine ⟨filePreamble package, [], ?_⟩
      rw [WriteJavaFile_eq]
      have : Printer.over [] = Printer.mk [] 0 true := rfl
      rw [this, hqd]
      simp
    · obtain ⟨q, qx, before, after, hq, hqx, hout⟩ :=
        PrintedIn_contains root _ n hprinted final (Printer.over [])
      simp only [ClassMember.Print] at hqx
      have hl : (Printer.over []).indent_level + n = n := by simp [Printer.over]
      rw [hl, hqd] at hqx
      cases hqx
      refine ⟨filePreamble package ++ before, after, ?_⟩
      rw [WriteJavaFile_eq, hq]
      simp only [Option.map_some', hout, Printer.over]
      simp [List.append_assoc]
  obtain ⟨before, after, hw⟩ := hfile
  refine ⟨_, before, after, hqd, hw, ⟨t, ?_⟩, ?_⟩
  · show body.out ++ (Printer.mk [] n true).indentation ++ ['\x7d'] = _
    rw [ht]
    rfl
  · intro hcomment hname
    refine ⟨t, ?_⟩
    show body.out ++ (Printer.mk [] n true).indentation ++ ['\x7d'] = _
    rw [ht]
    have hnoc : (Printer.mk [] n true).Print D.processor_.text = Printer.mk [] n true := by
      rw [hcomment]; rfl
    have hd : D.declaration =
        ("public " ++ (if D.qualifier_ = ClassQualifier.kStatic then "static " else "") ++
          "final class " ++ D.name_ ++ " \x7b") ++ "\n" := by
      unfold ClassDefinition.declaration
      rw [String.append_assoc _ " \x7b" "\n"]
      rfl
    have hq : '\n' ∉ (if D.qualifier_ = ClassQualifier.kStatic then "static " else "").toList := by
      split_ifs <;> decide
    have hline : ((Printer.mk [] n true).Print D.declaration).out =
        (List.replicate n Printer.indentUnit).flatten ++ D.declaration.toList := by
      rw [hd, Print_line _ _ (by simp [String.toList, String.data_append])
        (by
          simp only [String.toList, String.data_append, List.mem_append, not_or] at hname hq ⊢
          exact ⟨⟨⟨⟨by decide, hq⟩, by decide⟩, hname⟩, by decide⟩)]
      simp [String.toList, String.data_append, Printer.indentation]
    show ((((Printer.mk [] n true).Print D.processor_.text).Print D.declaration).Indent).out ++
      t ++ (Printer.mk [] n true).indentation ++ ['\x7d'] = _
    rw [hnoc]
    show ((Printer.mk [] n true).Print D.declaration).out ++ t ++ _ ++ _ = _
    rw [hline]
    rfl

/-- Witness for C15: the member-less `create_if_empty_` class `foo` under a root
that is `create_if_empty_`. -/
theorem create_if_empty_forces_emission_witness :
    ∃ (before after : List Char),
      WriteJavaFile shownCreateIfEmpty "com.example" false [] =
        some (before ++ " public static final class foo \x7b\n \x7d".toList ++ after) := by
  obtain ⟨qd, before, after, hqd, hw, -, -⟩ :=
    create_if_empty_forces_emission shownCreateIfEmpty fooClass "com.example" false 1 rfl
      (Or.inr (PrintedIn.direct _ _ (Or.inr rfl) (List.Mem.head _)))
  have hq : fooClass.Print false (Printer.mk [] 1 true) =
      some { out := " public static final class foo \x7b\n \x7d".toList,
             indent_level := 1, needs_indent := false } := by rfl
  rw [hq] at hqd
  cases hqd
  exact ⟨before, after, hw⟩

/-! ## `Indent` and `Undent` are balanced -/

theorem runOps_append (a b : List PrinterOp) (p : Printer) :
    runOps (a ++ b) p = (runOps a p).bind (runOps b) := by
  induction a generalizing p with
  | nil => rfl
  | cons op rest ih =>
    cases op with
    | print str => simpa [runOps] using ih _
    | indent => simpa [runOps] using ih _
    | undent =>
      simp only [List.cons_append, runOps]
      cases p.Undent with
      | none => rfl
      | some q => exact ih q

theorem depthAfter_append (a b : List PrinterOp) (depth : Nat) :
    depthAfter (a ++ b) depth = depthAfter b (depthAfter a depth) := by
  induction a generalizing depth with
  | nil => rfl
  | cons op rest ih =>
    cases op <;> simp [depthAfter, ih]

theorem staysAbove_append (floor : Nat) (a b : List PrinterOp) (depth : Nat) :
    staysAbove floor (a ++ b) depth =
      (staysAbove floor a depth && staysAbove floor b (depthAfter a depth)) := by
  induction a generalizing depth with
  | nil => simp [staysAbove, depthAfter]
  | cons op rest ih =>
    cases op <;> simp [staysAbove, depthAfter, ih, Bool.and_assoc]

theorem BalancedOps_nil : BalancedOps [] := fun _ _ _ => ⟨rfl, rfl⟩

theorem BalancedOps_print (str : String) : BalancedOps [PrinterOp.print str] :=
  fun _ _ _ => ⟨rfl, rfl⟩

theorem BalancedOps_append (a b : List PrinterOp) (ha : BalancedOps a) (hb : BalancedOps b) :
    BalancedOps (a ++ b) := by
  intro floor depth h
  rw [staysAbove_append, depthAfter_append, (ha floor depth h).2]
  exact ⟨by simp [(ha floor depth h).1, (hb floor depth h).1], (hb floor depth h).2⟩

theorem BalancedOps_scope (a : List PrinterOp) (ha : BalancedOps a) :
    BalancedOps ([PrinterOp.indent] ++ a ++ [PrinterOp.undent]) := by
  intro floor depth h
  have h1 := ha floor (depth + 1) (by omega)
  have e1 : [PrinterOp.indent] ++ a ++ [PrinterOp.undent] =
      PrinterOp.indent :: (a ++ [PrinterOp.undent]) := by simp
  rw [e1]
  constructor
  · show staysAbove floor (a ++ [PrinterOp.undent]) (depth + 1) = true
    rw [staysAbove_append, h1.1, h1.2]
    simp only [staysAbove, Bool.true_and, Bool.and_true, decide_eq_true_eq]
    omega
  · show depthAfter (a ++ [PrinterOp.undent]) (depth + 1) = depth
    rw [depthAfter_append, h1.2]
    rfl

theorem BalancedOps_statements (statements : List String) :
    BalancedOps (statements.map (fun statement =>
      [PrinterOp.print statement, PrinterOp.print "\n"])).flatten := by
  induction statements with
  | nil => exact BalancedOps_nil
  | cons st rest ih =>
    simp only [List.map_cons, List.flatten_cons]
    exact BalancedOps_append _ _ (fun _ _ _ => ⟨rfl, rfl⟩) ih

theorem MethodDefinition_ops_balanced (m : MethodDefinition) (final : Bool) :
    BalancedOps (m.ops final) := by
  have hscope := BalancedOps_scope _ (BalancedOps_statements m.statements_)
  have h := BalancedOps_append _ _
    (BalancedOps_append [PrinterOp.print m.signature, PrinterOp.print " \x7b",
      PrinterOp.print "\n"] _ (fun _ _ _ => ⟨rfl, rfl⟩) hscope)
    (BalancedOps_print "\x7d")
  simpa [MethodDefinition.ops, List.append_assoc] using h

theorem opsLoop_balanced (slots : List (Option ClassMember)) (final : Bool)
    (h : ∀ m, some m ∈ slots → BalancedOps (m.ops final)) :
    BalancedOps (opsLoop slots final) := by
  induction slots with
  | nil => exact BalancedOps_nil
  | cons slot rest ih =>
    cases slot with
    | none =>
      simp only [opsLoop]
      exact ih (fun m hm => h m (by simp [hm]))
    | some member =>
      simp only [opsLoop]
      exact BalancedOps_append _ _
        (BalancedOps_append _ _ (h member (by simp)) (BalancedOps_print "\n"))
        (ih (fun m hm => h m (by simp [hm])))

theorem ClassDefinition_ops_eq (c : ClassDefinition) (final : Bool) :
    c.ops final =
      if c.empty && !c.create_if_empty_ then []
      else
        [PrinterOp.print c.processor_.text, PrinterOp.print "public "] ++
        (if c.qualifier_ = ClassQualifier.kStatic then [PrinterOp.print "static "] else []) ++
        [PrinterOp.print "final class ", PrinterOp.print c.name_, PrinterOp.print " \x7b",
          PrinterOp.print "\n", PrinterOp.indent] ++
        opsLoop c.ordered_members_ final ++
        [PrinterOp.undent, PrinterOp.print "\x7d"] := by
  rw [ClassDefinition_empty_eq]
  cases c
  simp only [ClassDefinition.ops]

theorem ClassMember_ops_balanced (member : ClassMember) (final : Bool) :
    BalancedOps (member.ops final) := by
  induction member using ClassMember_induct with
  | hmethod m =>
    rw [ClassMember.ops]
    exact MethodDefinition_ops_balanced m final
  | hclass c ih =>
    rw [ClassMember.ops, ClassDefinition_ops_eq]
    by_cases hcond : (c.empty && !c.create_if_empty_) = true
    · rw [if_pos hcond]
      exact BalancedOps_nil
    · rw [if_neg hcond]
      have hscope := BalancedOps_scope _ (opsLoop_balanced c.ordered_members_ final ih)
      have hq : BalancedOps
          (if c.qualifier_ = ClassQualifier.kStatic then [PrinterOp.print "static "] else []) := by
        split_ifs
        · exact BalancedOps_print _
        · exact BalancedOps_nil
      have h := BalancedOps_append _ _
        (BalancedOps_append _ _
          (BalancedOps_append _ _
            (BalancedOps_append [PrinterOp.print c.processor_.text, PrinterOp.print "public "]
              _ (fun _ _ _ => ⟨rfl, rfl⟩) hq)
            (fun _ _ _ => ⟨rfl, rfl⟩ :
              BalancedOps [PrinterOp.print "final class ", PrinterOp.print c.name_,
                PrinterOp.print " \x7b", PrinterOp.print "\n"]))
          hscope)
        (BalancedOps_print "\x7d")
      simpa [List.append_assoc] using h

theorem ClassDefinition_ops_balanced (c : ClassDefinition) (final : Bool) :
    BalancedOps (c.ops final) := by
  have h := ClassMember_ops_balanced (ClassMember.classDef c) final
  rw [ClassMember.ops] at h
  exact h

theorem runOps_statements (statements : List String) (rest : List PrinterOp) (p : Printer) :
    runOps ((statements.map (fun statement =>
      [PrinterOp.print statement, PrinterOp.print "\n"])).flatten ++ rest) p =
      runOps rest (statements.foldl (fun q statement => q.Println statement) p) := by
  induction statements generalizing p with
  | nil => rfl
  | cons st tail ih =>
    simp only [List.map_cons, List.flatten_cons, List.cons_append, List.nil_append, runOps,
      List.foldl_cons]
    exact ih _

theorem MethodDefinition_Print_runOps (m : MethodDefinition) (final : Bool) (p : Printer) :
    m.Print final p = runOps (m.ops final) p := by
  have hops : m.ops final =
      PrinterOp.print m.signature :: PrinterOp.print " \x7b" :: PrinterOp.print "\n" ::
        PrinterOp.indent ::
          ((m.statements_.map (fun statement =>
            [PrinterOp.print statement, PrinterOp.print "\n"])).flatten ++
            [PrinterOp.undent, PrinterOp.print "\x7d"]) := by
    simp [MethodDefinition.ops]
  rw [hops]
  simp only [runOps]
  rw [runOps_statements]
  simp only [runOps]
  rfl

theorem printLoop_runOps (slots : List (Option ClassMember)) (final : Bool)
    (h : ∀ m, some m ∈ slots → ∀ p : Printer, m.Print final p = runOps (m.ops final) p)
    (p : Printer) : printLoop slots final p = runOps (opsLoop slots final) p := by
  induction slots generalizing p with
  | nil => rfl
  | cons slot rest ih =>
    cases slot with
    | none =>
      simp only [printLoop, opsLoop]
      exact ih (fun m hm => h m (by simp [hm])) p
    | some member =>
      simp only [printLoop, opsLoop, runOps_append, h member (by simp) p]
      cases runOps (member.ops final) p with
      | none => rfl
      | some q =>
        simp only [Option.some_bind, runOps]
        exact ih (fun m hm => h m (by simp [hm])) _

theorem ClassMember_Print_runOps (member : ClassMember) (final : Bool) :
    ∀ p : Printer, member.Print final p = runOps (member.ops final) p := by
  induction member using ClassMember_induct with
  | hmethod m =>
    intro p
    simp only [ClassMember.Print, ClassMember.ops]
    exact MethodDefinition_Print_runOps m final p
  | hclass c ih =>
    intro p
    simp only [ClassMember.Print, ClassMember.ops]
    rw [ClassDefinition_ops_eq, ClassDefinition_Print_eq, ← Print_declaration]
    by_cases hcond : (c.empty && !c.create_if_empty_) = true
    · rw [if_pos hcond, if_pos hcond]
      rfl
    · rw [if_neg hcond, if_neg hcond, printLoop_runOps c.ordered_members_ final ih]
      by_cases hq : c.qualifier_ = ClassQualifier.kStatic
      · rw [if_pos hq, if_pos hq]
        simp only [List.cons_append, List.nil_append, List.append_assoc]
        simp only [runOps, Printer.Println]
        rw [runOps_append]
        cases runOps (opsLoop c.ordered_members_ final)
            (((((((p.Print c.processor_.text).Print "public ").Print "static ").Print
              "final class ").Print c.name_).Print " \x7b").Print "\n").Indent with
        | none => rfl
        | some q =>
          simp only [Option.some_bind, runOps]
      · rw [if_neg hq, if_neg hq]
        simp only [List.cons_append, List.nil_append, List.append_assoc]
        simp only [runOps, Printer.Println]
        rw [runOps_append]
        cases runOps (opsLoop c.ordered_members_ final)
            ((((((p.Print c.processor_.text).Print "public ").Print
              "final class ").Print c.name_).Print " \x7b").Print "\n").Indent with
        | none => rfl
        | some q =>
          simp only [Option.some_bind, runOps]

theorem ClassDefinition_Print_runOps (c : ClassDefinition) (final : Bool) (p : Printer) :
    c.Print final p = runOps (c.ops final) p := by
  have h := ClassMember_Print_runOps (ClassMember.classDef c) final p
  simp only [ClassMember.Print, ClassMember.ops] at h
  exact h

/-- C18: the printer calls of a rendering are balanced. `Print` of a member, a
method and a class is the run of the calls it makes; from every starting depth
`d` the depth never drops below `d` during those calls, the run does not hit the
fatal `Undent()` at depth zero, and it returns at depth `d`. The same holds for
`WriteJavaFile`, whose printer starts at depth zero. -/
theorem indent_undent_balanced (member : ClassMember) (m : MethodDefinition)
    (c : ClassDefinition) (package : String) (final : Bool) (p : Printer) (out : List Char) :
    (member.Print final p = runOps (member.ops final) p ∧
      staysAbove p.indent_level (member.ops final) p.indent_level = true ∧
      ∃ q, member.Print final p = some q ∧ q.indent_level = p.indent_level) ∧
    (m.Print final p = runOps (m.ops final) p ∧
      staysAbove p.indent_level (m.ops final) p.indent_level = true ∧
      ∃ q, m.Print final p = some q ∧ q.indent_level = p.indent_level) ∧
    (c.Print final p = runOps (c.ops final) p ∧
      staysAbove p.indent_level (c.ops final) p.indent_level = true ∧
      ∃ q, c.Print final p = some q ∧ q.indent_level = p.indent_level) ∧
    (WriteJavaFile c package final out =
        (runOps (WriteJavaFileOps c package final) (Printer.over out)).map Printer.out ∧
      staysAbove 0 (WriteJavaFileOps c package final) 0 = true ∧
      ∃ q, runOps (WriteJavaFileOps c package final) (Printer.over out) = some q ∧
        q.indent_level = 0) := by
  have hfile : WriteJavaFileOps c package final =
      PrinterOp.print sWarningHeader :: PrinterOp.print "package " ::
        PrinterOp.print package :: PrinterOp.print ";" :: PrinterOp.print "\n" ::
          PrinterOp.print "\n" :: c.ops final := by
    simp [WriteJavaFileOps]
  refine ⟨⟨ClassMember_Print_runOps member final p,
      (ClassMember_ops_balanced member final _ _ (Nat.le_refl _)).1,
      ClassMember_Print_balanced member final p⟩,
    ⟨MethodDefinition_Print_runOps m final p,
      (MethodDefinition_ops_balanced m final _ _ (Nat.le_refl _)).1, ?_⟩,
    ⟨ClassDefinition_Print_runOps c final p,
      (ClassDefinition_ops_balanced c final _ _ (Nat.le_refl _)).1,
      ClassDefinition_Print_balanced c final p⟩, ?_, ?_, ?_⟩
  · rw [MethodDefinition_Print_eq]
    exact ⟨_, rfl, rfl⟩
  · rw [hfile]
    unfold WriteJavaFile
    simp only [runOps, Printer.Println, Printer.PrintlnEmpty, ClassDefinition_Print_runOps]
    cases runOps (c.ops final) _ <;> rfl
  · rw [hfile]
    simp only [staysAbove]
    exact (ClassDefinition_ops_balanced c final 0 0 (Nat.le_refl _)).1
  · rw [hfile]
    simp only [runOps, ← ClassDefinition_Print_runOps]
    obtain ⟨q, hq, hql⟩ := ClassDefinition_Print_balanced c final
      ((((((((Printer.over out).Print sWarningHeader).Print "package ").Print package).Print
        ";").Print "\n").Print "\n"))
    refine ⟨q, hq, ?_⟩
    rw [hql]
    simp [Print_indent_level, Printer.over]

/-- Witness for C18: the calls made for the root `R` of the scenario, run from
depth three, never go below depth three. -/
theorem indent_undent_balanced_witness :
    staysAbove 3 (rootR.ops false) 3 = true ∧ depthAfter (rootR.ops false) 3 = 3 ∧
    staysAbove 3 [PrinterOp.undent, PrinterOp.indent] 3 = false :=
  ⟨(indent_undent_balanced (ClassMember.classDef rootR) getStringMethod rootR "com.example"
      false (Printer.mk [] 3 true) []).2.2.1.2.1, by decide, by decide⟩

/-! ## Indentation follows the nesting depth -/

theorem putChar_needs_indent (p : Printer) (c : Char) :
    (p.putChar c).needs_indent = (c == '\n') := by
  unfold Printer.putChar
  by_cases hc : c = '\n'
  · simp [hc]
  · cases hp : p.needs_indent <;> simp [hc, hp]

theorem foldl_putChar_needs_indent (cs : List Char) (p : Printer) :
    (cs.foldl Printer.putChar p).needs_indent =
      match cs.getLast? with
      | none => p.needs_indent
      | some c => c == '\n' := by
  induction cs generalizing p with
  | nil => rfl
  | cons c rest ih =>
    rw [List.foldl_cons, ih]
    cases rest with
    | nil => simp [putChar_needs_indent]
    | cons d tail =>
      rw [List.getLast?_cons_cons]
      cases hl : (d :: tail).getLast? with
      | none => simp at hl
      | some e => rfl

theorem Print_needs_indent_endsLine (p : Printer) (hp : p.needs_indent = true) (str : String) :
    (p.Print str).needs_indent = endsLine str := by
  unfold Printer.Print endsLine
  rw [foldl_putChar_needs_indent]
  cases str.toList.getLast? with
  | none => exact hp
  | some c => rfl

theorem noNewline_iff (str : String) : noNewline str = true ↔ '\n' ∉ str.toList := by
  simp [noNewline]

theorem isLine_iff (str : String) :
    isLine str = true ↔ str ≠ "" ∧ '\n' ∉ str.toList := by
  simp [isLine, noNewline]

theorem ClassDefinition_wellFormed_eq (c : ClassDefinition) :
    c.wellFormed = (noNewline c.name_ && wellFormedLoop c.ordered_members_) := by
  cases c
  simp only [ClassDefinition.wellFormed]

theorem wellFormedLoop_iff (slots : List (Option ClassMember)) :
    wellFormedLoop slots = true ↔ ∀ m : ClassMember, some m ∈ slots → m.wellFormed = true := by
  induction slots with
  | nil => simp [wellFormedLoop]
  | cons slot rest ih =>
    cases slot with
    | none => simp [wellFormedLoop, ih]
    | some member => simp [wellFormedLoop, ih]

theorem ClassDefinition_render_eq (c : ClassDefinition) (depth : Nat) :
    c.render depth =
      if c.empty && !c.create_if_empty_ then []
      else
        Printer.lineText depth c.processor_.text ++
        (if endsLine c.processor_.text then indentOf depth else []) ++
        c.declaration.toList ++
        renderLoop c.ordered_members_ (depth + 1) ++
        indentOf depth ++ ['\x7d'] := by
  rw [ClassDefinition_empty_eq]
  cases c
  simp only [ClassDefinition.render, ClassDefinition.declaration]

theorem MethodDefinition_Print_render (m : MethodDefinition) (final : Bool) (p : Printer)
    (hp : p.needs_indent = true) (hsig : noNewline m.signature = true)
    (hst : m.statements_.all isLine = true) :
    m.Print final p =
      some { out := p.out ++ m.render p.indent_level, indent_level := p.indent_level,
             needs_indent := false } := by
  have hsplit : m.signature ++ " \x7b\n" = (m.signature ++ " \x7b") ++ "\n" := by
    rw [String.append_assoc]; rfl
  have hhead : (p.Print (m.signature ++ " \x7b\n")).out =
      p.out ++ indentOf p.indent_level ++ m.signature.toList ++ [' ', '\x7b', '\n'] := by
    rw [hsplit, Print_line p _ (by simp [String.toList, String.data_append])
      (by
        simp only [String.toList, String.data_append, List.mem_append, not_or]
        exact ⟨(noNewline_iff _).1 hsig, by decide⟩)]
    simp [String.toList, String.data_append, hp, Printer.indentation, indentOf]
  have hbody : (m.statements_.map
      (fun st => Printer.lineText (p.indent_level + 1) (st ++ "\n"))) =
      m.statements_.map (fun st => indentOf (p.indent_level + 1) ++ st.toList ++ ['\n']) := by
    apply List.map_congr_left
    intro st hmem
    have hline := (isLine_iff st).1 (List.all_eq_true.1 hst st hmem)
    exact lineText_clean _ st hline.1 hline.2
  rw [MethodDefinition_Print_eq, hhead, hbody]
  simp [MethodDefinition.render, Printer.indentation, indentOf, List.append_assoc]

theorem printLoop_render (slots : List (Option ClassMember)) (final : Bool)
    (h : ∀ m, some m ∈ slots → ∀ p : Printer, p.needs_indent = true →
      ∃ q, m.Print final p = some q ∧ q.out = p.out ++ m.render p.indent_level ∧
        q.indent_level = p.indent_level)
    (s : Printer) (hs : s.needs_indent = true) :
    ∃ body, printLoop slots final s = some body ∧
      body.out = s.out ++ renderLoop slots s.indent_level ∧
      body.indent_level = s.indent_level ∧ body.needs_indent = true := by
  induction slots generalizing s with
  | nil => exact ⟨s, rfl, by simp [renderLoop], rfl, hs⟩
  | cons slot rest ih =>
    cases slot with
    | none =>
      simp only [printLoop, renderLoop]
      exact ih (fun m hm => h m (by simp [hm])) s hs
    | some member =>
      obtain ⟨q, hq, hqo, hql⟩ := h member (by simp) s hs
      obtain ⟨body, hbody, hbo, hbl, hbn⟩ := ih (fun m hm => h m (by simp [hm]))
        q.PrintlnEmpty (by simp [Printer.PrintlnEmpty, Print_newline])
      have hnl : q.PrintlnEmpty.indent_level = s.indent_level := by
        simp [Printer.PrintlnEmpty, Print_newline, hql]
      have hno : q.PrintlnEmpty.out = s.out ++ member.render s.indent_level ++ ['\n'] := by
        simp [Printer.PrintlnEmpty, Print_newline, hqo]
      refine ⟨body, ?_, ?_, ?_, hbn⟩
      · simp only [printLoop, hq]
        exact hbody
      · rw [hbo, hnl, hno]
        simp [renderLoop, List.append_assoc]
      · rw [hbl, hnl]

theorem ClassMember_Print_render (member : ClassMember) (final : Bool) :
    member.wellFormed = true → ∀ p : Printer, p.needs_indent = true →
      ∃ q, member.Print final p = some q ∧ q.out = p.out ++ member.render p.indent_level ∧
        q.indent_level = p.indent_level := by
  induction member using ClassMember_induct with
  | hmethod m =>
    intro hwf p hp
    simp only [ClassMember.wellFormed, Bool.and_eq_true] at hwf
    simp only [ClassMember.Print, ClassMember.render]
    exact ⟨_, MethodDefinition_Print_render m final p hp hwf.1 hwf.2, rfl, rfl⟩
  | hclass c ih =>
    intro hwf p hp
    simp only [ClassMember.wellFormed] at hwf
    rw [ClassDefinition_wellFormed_eq, Bool.and_eq_true, wellFormedLoop_iff] at hwf
    simp only [ClassMember.Print, ClassMember.render]
    rw [ClassDefinition_render_eq]
    by_cases hcond : (c.empty && !c.create_if_empty_) = true
    · rw [if_pos hcond, ClassDefinition_Print_eq, if_pos hcond]
      exact ⟨p, rfl, by simp, rfl⟩
    · rw [if_neg hcond]
      have hshown : c.empty = false ∨ c.create_if_empty_ = true := by
        cases he : c.empty <;> cases hc : c.create_if_empty_ <;> simp [he, hc] at hcond ⊢
      obtain ⟨body, hbody, hbo, -, -⟩ := printLoop_render c.ordered_members_ final
        (fun m hm => ih m hm (hwf.2 m hm)) _ (declared_needs_indent c p)
      rw [printLoop_eq_renderMembers] at hbody
      rw [declared_indent_level] at hbo
      have hcomment : (p.Print c.processor_.text).out =
          p.out ++ Printer.lineText p.indent_level c.processor_.text :=
        Print_out_lineText p hp _
      have hd : c.declaration =
          ("public " ++ (if c.qualifier_ = ClassQualifier.kStatic then "static " else "") ++
            "final class " ++ c.name_ ++ " \x7b") ++ "\n" := by
        unfold ClassDefinition.declaration
        rw [String.append_assoc _ " \x7b" "\n"]
        rfl
      have hq : '\n' ∉
          (if c.qualifier_ = ClassQualifier.kStatic then "static " else "").toList := by
        split_ifs <;> decide
      have hname := (noNewline_iff _).1 hwf.1
      have hdecl : ((p.Print c.processor_.text).Print c.declaration).out =
          p.out ++ Printer.lineText p.indent_level c.processor_.text ++
            (if endsLine c.processor_.text = true then indentOf p.indent_level else []) ++
            c.declaration.toList := by
        conv_lhs => rw [hd]
        rw [Print_line _ _ (by simp [String.toList, String.data_append])
          (by
            simp only [String.toList, String.data_append, List.mem_append, not_or]
              at hname hq ⊢
            exact ⟨⟨⟨⟨by decide, hq⟩, by decide⟩, hname⟩, by decide⟩)]
        rw [hcomment, Print_needs_indent_endsLine p hp, hd]
        simp [String.toList, String.data_append, Printer.indentation, indentOf,
          Print_indent_level, List.append_assoc]
      refine ⟨_, Print_shown c final p hshown body hbody, ?_, rfl⟩
      show body.out ++ p.indentation ++ ['\x7d'] = _
      rw [hbo]
      show ((p.Print c.processor_.text).Print c.declaration).out ++ _ ++ _ ++ _ = _
      rw [hdecl]
      simp [Printer.indentation, indentOf, List.append_assoc]

/-- C17: for a member tree whose signatures and class names hold no newline and
whose statements are non-empty lines, what `WriteJavaFile` writes after the
preamble is the layout of the tree: the header and the closing brace of a
member inside `N` scopes carry exactly `N` indent units, the statements of a
method one unit more, and after a closing brace the text continues at the depth
of the enclosing scope. A comment block is laid out at the depth of its class,
and the declaration line carries its units where it starts a line. The same
holds for a member printed at the start of a line at any depth. -/
theorem indentation_consistent (root : ClassDefinition) (member : ClassMember)
    (package : String) (final : Bool) (p : Printer)
    (hroot : root.wellFormed = true) (hmember : member.wellFormed = true)
    (hp : p.needs_indent = true) :
    WriteJavaFile root package final [] = some (filePreamble package ++ root.render 0) ∧
    (∃ q, member.Print final p = some q ∧ q.out = p.out ++ member.render p.indent_level ∧
      q.indent_level = p.indent_level) := by
  refine ⟨?_, ClassMember_Print_render member final hmember p hp⟩
  have hr := ClassMember_Print_render (ClassMember.classDef root) final
    (by rw [ClassMember.wellFormed]; exact hroot) (Printer.over []) rfl
  simp only [ClassMember.Print, ClassMember.render] at hr
  obtain ⟨q, hq, hqo, -⟩ := hr
  rw [WriteJavaFile_eq, hq]
  simp [hqo, Printer.over]

/-- Witness for C17: the layout of the root `R` of the scenario. -/
theorem indentation_consistent_witness :
    WriteJavaFile rootR "com.example" false [] =
      some (filePreamble "com.example" ++
        ("public final class R \x7b\n" ++
         " public static final class string \x7b\n" ++
         "  public String getString() \x7b\n" ++
         "   return \"x\";\n" ++
         "  \x7d\n" ++
         " \x7d\n" ++
         "\x7d").toList) := by
  rw [(indentation_consistent rootR (ClassMember.classDef rootR) "com.example" false
    (Printer.over []) (by decide) (by decide) rfl).1]
  rfl

end aapt
